import Mathlib

/-!
Verification of the ProCharting data pipeline core.

This file shallowly embeds the data-pipeline components of the repository —
the shared ring channel (`packages/core/src/data/shared-data-manager.ts`),
the binary wire protocol (`BinaryProtocol` and the `BinaryEncoder` /
`BinaryDecoder` pair), the decimation and aggregation workers, the worker
dispatch pool, the reconnecting websocket transport
(`packages/core/src/websocket/websocket-client.ts`), and the staging
`DataBuffer` / `RingBuffer` pair (`packages/data/src/buffer.ts`,
`packages/utils/src/memory.ts`) — and proves or refutes the specified
properties of each.

Modelling conventions:
* byte buffers are `List Nat` with each byte `< 256`; multi-byte integer
  fields are serialized little-endian, exactly as the `DataView` calls in
  the source do;
* `f32` / `f64` fields are carried as their bit patterns (`Nat` below
  `2 ^ 32` / `2 ^ 64`): the codec only moves bytes, it never does float
  arithmetic, so the embedding is exact;
* machine indices and counters are `Nat`; numeric chart values (candle
  prices, decimation coordinates) are `ℚ`, which carries the exact values
  of the finite floats the source manipulates for comparisons, max / min,
  and sums.
-/

/-! ## Little-endian byte serialization (DataView getUint / setUint calls) -/

/-- Serialize `x` as `w` little-endian bytes, dropping bits beyond `8 * w`,
as the `DataView.setUintNN` / `setFloatNN` little-endian writes do. -/
def toLE : Nat → Nat → List Nat
  | 0, _ => []
  | w + 1, x => x % 256 :: toLE w (x / 256)

/-- Reassemble a little-endian byte list into the number it denotes, as the
`DataView.getUintNN` little-endian reads do. -/
def fromLE : List Nat → Nat
  | [] => 0
  | b :: bs => b + 256 * fromLE bs

theorem toLE_length (w x : Nat) : (toLE w x).length = w := by
  induction w generalizing x with
  | zero => rfl
  | succ w ih => simp [toLE, ih]

theorem fromLE_toLE (w x : Nat) (h : x < 256 ^ w) : fromLE (toLE w x) = x := by
  induction w generalizing x with
  | zero =>
    simp [pow_zero] at h
    simp [toLE, fromLE, h]
  | succ w ih =>
    have hdiv : x / 256 < 256 ^ w := by
      rw [Nat.div_lt_iff_lt_mul (by norm_num)]
      calc x < 256 ^ (w + 1) := h
        _ = 256 ^ w * 256 := by ring
    simp only [toLE, fromLE, ih _ hdiv]
    exact Nat.mod_add_div x 256

/-! ## Sequential byte readers (the `BinaryDecoder` methods) -/

/-- Take `n` bytes off the front of the stream; `none` when fewer remain
(the source decoder would read out of the view's bounds there). -/
def readBytes (n : Nat) (l : List Nat) : Option (List Nat × List Nat) :=
  if n ≤ l.length then some (l.take n, l.drop n) else none

/-- BinaryDecoder.readUint8. -/
def readUint8 (l : List Nat) : Option (Nat × List Nat) :=
  match l with
  | [] => none
  | b :: r => some (b, r)

/-- Read a `w`-byte little-endian unsigned integer. -/
def readUintLE (w : Nat) (l : List Nat) : Option (Nat × List Nat) :=
  (readBytes w l).map (fun p => (fromLE p.1, p.2))

/-- BinaryDecoder.readUint16 (little-endian). -/
def readUint16 (l : List Nat) : Option (Nat × List Nat) := readUintLE 2 l

/-- BinaryDecoder.readUint32 (little-endian). -/
def readUint32 (l : List Nat) : Option (Nat × List Nat) := readUintLE 4 l

/-- BinaryDecoder.readFloat32, carried as the 4-byte bit pattern. -/
def readFloat32 (l : List Nat) : Option (Nat × List Nat) := readUintLE 4 l

/-- BinaryDecoder.readFloat64, carried as the 8-byte bit pattern. -/
def readFloat64 (l : List Nat) : Option (Nat × List Nat) := readUintLE 8 l

/-- BinaryDecoder.readString: u32 length prefix, then that many bytes of
UTF-8 payload (kept as raw bytes here). -/
def readString (l : List Nat) : Option (List Nat × List Nat) :=
  match readUint32 l with
  | none => none
  | some (n, r) => readBytes n r

theorem readBytes_append (l r : List Nat) : readBytes l.length (l ++ r) = some (l, r) := by
  simp [readBytes, List.take_left, List.drop_left]

theorem readUintLE_toLE (w x : Nat) (r : List Nat) (h : x < 256 ^ w) :
    readUintLE w (toLE w x ++ r) = some (x, r) := by
  have hb : readBytes w (toLE w x ++ r) = some (toLE w x, r) := by
    have := readBytes_append (toLE w x) r
    rwa [toLE_length] at this
  simp [readUintLE, hb, fromLE_toLE w x h]

/-! ## Wire protocol (`BinaryProtocol`, src/unnamed/part_006)

`Update` payload fields are optional f32 values; each is carried here as its
32-bit pattern. The field mask has bit `i` set exactly when field `i` is
present, bit 0 = open … bit 8 = askSize. -/

/-- Optional numeric fields of an `UpdateMessage`, in wire bit order. -/
structure UpdateData where
  open_ : Option Nat
  high : Option Nat
  low : Option Nat
  close : Option Nat
  volume : Option Nat
  bid : Option Nat
  ask : Option Nat
  bidSize : Option Nat
  askSize : Option Nat
deriving DecidableEq

/-- A decoded `Update` wire message: symbol bytes, f64 timestamp bit
pattern, and the present optional fields. -/
structure UpdateMessage where
  symbol : List Nat
  timestamp : Nat
  data : UpdateData
deriving DecidableEq

/-- The nine presence bits of the field mask, in ascending bit order. -/
def maskBits (d : UpdateData) : List Bool :=
  [d.open_.isSome, d.high.isSome, d.low.isSome, d.close.isSome, d.volume.isSome,
   d.bid.isSome, d.ask.isSome, d.bidSize.isSome, d.askSize.isSome]

/-- Assemble a bit list (least significant first) into the mask integer. -/
def bitsToNat : List Bool → Nat
  | [] => 0
  | b :: bs => (if b then 1 else 0) + 2 * bitsToNat bs

/-- Serialize one optional f32 field: 4 little-endian bytes when present,
nothing when absent. -/
def encOptF32 (o : Option Nat) : List Nat :=
  match o with
  | none => []
  | some v => toLE 4 v

/-- Encode an `Update` message per the wire layout of spec section 6:
byte 0 = 3, u32 symbol length + symbol bytes, f64 timestamp, u16 field
mask, then one f32 per set bit in ascending bit order. -/
def encodeUpdate (m : UpdateMessage) : List Nat :=
  [3] ++ toLE 4 m.symbol.length ++ m.symbol ++ toLE 8 m.timestamp
    ++ toLE 2 (bitsToNat (maskBits m.data))
    ++ encOptF32 m.data.open_ ++ encOptF32 m.data.high ++ encOptF32 m.data.low
    ++ encOptF32 m.data.close ++ encOptF32 m.data.volume ++ encOptF32 m.data.bid
    ++ encOptF32 m.data.ask ++ encOptF32 m.data.bidSize ++ encOptF32 m.data.askSize

/-- Read one optional f32 field: consume 4 bytes exactly when the mask bit
`b` is set, mirroring the `if (fieldMask & 0x…) data.x = readFloat32()`
lines of `BinaryProtocol.decodeUpdate`. -/
def readOptF32 (b : Bool) (l : List Nat) : Option (Option Nat × List Nat) :=
  if b then (readFloat32 l).map (fun p => (some p.1, p.2)) else some (none, l)

/-- The nine `if (fieldMask & 0x…) data.x = readFloat32()` lines of
`BinaryProtocol.decodeUpdate`: one conditional f32 read per mask bit, in
ascending bit order. -/
def decodeFields (mask : Nat) (l : List Nat) : Option (UpdateData × List Nat) := do
  let f0 ← readOptF32 (mask.testBit 0) l
  let f1 ← readOptF32 (mask.testBit 1) f0.2
  let f2 ← readOptF32 (mask.testBit 2) f1.2
  let f3 ← readOptF32 (mask.testBit 3) f2.2
  let f4 ← readOptF32 (mask.testBit 4) f3.2
  let f5 ← readOptF32 (mask.testBit 5) f4.2
  let f6 ← readOptF32 (mask.testBit 6) f5.2
  let f7 ← readOptF32 (mask.testBit 7) f6.2
  let f8 ← readOptF32 (mask.testBit 8) f7.2
  pure (⟨f0.1, f1.1, f2.1, f3.1, f4.1, f5.1, f6.1, f7.1, f8.1⟩, f8.2)

/-- BinaryProtocol.decodeUpdate: symbol, f64 timestamp, u16 field mask, then
one f32 per set mask bit in ascending bit order (`decodeFields`). -/
def decodeUpdate (l : List Nat) : Option UpdateMessage := do
  let sym ← readString l
  let ts ← readFloat64 sym.2
  let mask ← readUint16 ts.2
  let fs ← decodeFields mask.1 mask.2
  pure ⟨sym.1, ts.1, fs.1⟩

/-- BinaryProtocol.decodeMessage: dispatch on the 1-byte message type;
type 3 is `Update`, all other types (snapshot, error, heartbeat, unknown)
decode to `none`. -/
def decodeMessage (l : List Nat) : Option UpdateMessage :=
  match readUint8 l with
  | none => none
  | some (t, r) => if t = 3 then decodeUpdate r else none

/-- All present field values fit in 32 bits (they are f32 bit patterns). -/
def UpdateDataWF (d : UpdateData) : Prop :=
  (∀ v ∈ d.open_, v < 2 ^ 32) ∧ (∀ v ∈ d.high, v < 2 ^ 32) ∧
  (∀ v ∈ d.low, v < 2 ^ 32) ∧ (∀ v ∈ d.close, v < 2 ^ 32) ∧
  (∀ v ∈ d.volume, v < 2 ^ 32) ∧ (∀ v ∈ d.bid, v < 2 ^ 32) ∧
  (∀ v ∈ d.ask, v < 2 ^ 32) ∧ (∀ v ∈ d.bidSize, v < 2 ^ 32) ∧
  (∀ v ∈ d.askSize, v < 2 ^ 32)

instance (d : UpdateData) : Decidable (UpdateDataWF d) := by
  unfold UpdateDataWF; infer_instance

theorem bitsToNat_lt (bs : List Bool) : bitsToNat bs < 2 ^ bs.length := by
  induction bs with
  | nil => simp [bitsToNat]
  | cons b bs ih =>
    have hb : (if b then 1 else 0) ≤ 1 := by cases b <;> simp
    simp only [bitsToNat, List.length_cons, pow_succ]
    omega

theorem bitsToNat_testBit (bs : List Bool) (i : Nat) :
    (bitsToNat bs).testBit i = bs.getD i false := by
  induction bs generalizing i with
  | nil => simp [bitsToNat]
  | cons b bs ih =>
    cases i with
    | zero =>
      simp only [bitsToNat, List.getD_cons_zero, Nat.testBit_zero]
      cases b <;> simp <;> omega
    | succ i =>
      simp only [bitsToNat, List.getD_cons_succ, ← ih i]
      have h2 : ((if b then 1 else 0) + 2 * bitsToNat bs) / 2 = bitsToNat bs := by
        cases b <;> simp <;> omega
      rw [Nat.testBit_succ, h2]

theorem readOptF32_enc (o : Option Nat) (r : List Nat) (hv : ∀ v ∈ o, v < 2 ^ 32) :
    readOptF32 o.isSome (encOptF32 o ++ r) = some (o, r) := by
  cases o with
  | none => simp [readOptF32, encOptF32]
  | some v =>
    have hv' : v < 256 ^ 4 := by
      have := hv v rfl
      norm_num at this ⊢
      omega
    simp [readOptF32, encOptF32, readFloat32, readUintLE_toLE 4 v r hv']

theorem readString_enc (sym : List Nat) (r : List Nat) (h : sym.length < 256 ^ 4) :
    readString (toLE 4 sym.length ++ (sym ++ r)) = some (sym, r) := by
  have h1 := readUintLE_toLE 4 sym.length (sym ++ r) h
  have h2 := readBytes_append sym r
  simp [readString, readUint32, h1, h2]

theorem decodeFields_enc (msk : Nat) (d : UpdateData) (a0 a1 a2 a3 a4 a5 a6 a7 a8 : List Nat)
    (t0 : msk.testBit 0 = d.open_.isSome)
    (t1 : msk.testBit 1 = d.high.isSome)
    (t2 : msk.testBit 2 = d.low.isSome)
    (t3 : msk.testBit 3 = d.close.isSome)
    (t4 : msk.testBit 4 = d.volume.isSome)
    (t5 : msk.testBit 5 = d.bid.isSome)
    (t6 : msk.testBit 6 = d.ask.isSome)
    (t7 : msk.testBit 7 = d.bidSize.isSome)
    (t8 : msk.testBit 8 = d.askSize.isSome)
    (e0 : ∀ r, readOptF32 d.open_.isSome (a0 ++ r) = some (d.open_, r))
    (e1 : ∀ r, readOptF32 d.high.isSome (a1 ++ r) = some (d.high, r))
    (e2 : ∀ r, readOptF32 d.low.isSome (a2 ++ r) = some (d.low, r))
    (e3 : ∀ r, readOptF32 d.close.isSome (a3 ++ r) = some (d.close, r))
    (e4 : ∀ r, readOptF32 d.volume.isSome (a4 ++ r) = some (d.volume, r))
    (e5 : ∀ r, readOptF32 d.bid.isSome (a5 ++ r) = some (d.bid, r))
    (e6 : ∀ r, readOptF32 d.ask.isSome (a6 ++ r) = some (d.ask, r))
    (e7 : ∀ r, readOptF32 d.bidSize.isSome (a7 ++ r) = some (d.bidSize, r))
    (e8 : readOptF32 d.askSize.isSome a8 = some (d.askSize, ([] : List Nat))) :
    decodeFields msk (a0 ++ (a1 ++ (a2 ++ (a3 ++ (a4
      ++ (a5 ++ (a6 ++ (a7 ++ a8)))))))) = some (d, []) := by
  simp only [decodeFields, Option.bind_eq_bind, Option.some_bind, Option.pure_def,
    t0, t1, t2, t3, t4, t5, t6, t7, t8, e0, e1, e2, e3, e4, e5, e6, e7, e8]

theorem decodeUpdate_enc_gen (sym L T M : List Nat) (ts msk : Nat) (d : UpdateData)
    (F : List Nat)
    (hstr : ∀ r, readString (L ++ (sym ++ r)) = some (sym, r))
    (hts : ∀ r, readFloat64 (T ++ r) = some (ts, r))
    (hmask : ∀ r, readUint16 (M ++ r) = some (msk, r))
    (hF : decodeFields msk F = some (d, [])) :
    decodeUpdate (L ++ (sym ++ (T ++ (M ++ F)))) = some ⟨sym, ts, d⟩ := by
  simp only [decodeUpdate, Option.bind_eq_bind, Option.some_bind, Option.pure_def,
    hstr, hts, hmask, hF]

/-- C2: for every symbol, every f64 timestamp bit pattern, and every subset
of the 9 optional fields (including the empty and the full subset),
encoding an `Update` message per the wire layout and then applying
`decodeMessage` reproduces exactly the original symbol, timestamp and
field data. -/
theorem updateEncodeDecodeRoundTrip (m : UpdateMessage)
    (hsym : m.symbol.length < 2 ^ 32) (hts : m.timestamp < 2 ^ 64)
    (hd : UpdateDataWF m.data) :
    decodeMessage (encodeUpdate m) = some m := by
  obtain ⟨sym, ts, d⟩ := m
  obtain ⟨h0, h1, h2, h3, h4, h5, h6, h7, h8⟩ := hd
  have hsym4 : sym.length < 256 ^ 4 := by norm_num at hsym ⊢; omega
  have hts8 : ts < 256 ^ 8 := by norm_num at hts ⊢; omega
  have hmask2 : bitsToNat (maskBits d) < 256 ^ 2 := by
    have hb := bitsToNat_lt (maskBits d)
    have hlen : (maskBits d).length = 9 := rfl
    rw [hlen] at hb
    norm_num at hb ⊢
    omega
  have tb : ∀ i, (bitsToNat (maskBits d)).testBit i = (maskBits d).getD i false :=
    fun i => bitsToNat_testBit _ i
  have hstart : decodeMessage (encodeUpdate ⟨sym, ts, d⟩)
      = decodeUpdate (toLE 4 sym.length ++ (sym ++ (toLE 8 ts
        ++ (toLE 2 (bitsToNat (maskBits d)) ++ (encOptF32 d.open_ ++ (encOptF32 d.high
        ++ (encOptF32 d.low ++ (encOptF32 d.close ++ (encOptF32 d.volume
        ++ (encOptF32 d.bid ++ (encOptF32 d.ask
        ++ (encOptF32 d.bidSize ++ encOptF32 d.askSize)))))))))))) := by
    simp only [encodeUpdate, List.append_assoc, List.singleton_append]
    rfl
  rw [hstart]
  have hF : decodeFields (bitsToNat (maskBits d)) (encOptF32 d.open_ ++ (encOptF32 d.high
      ++ (encOptF32 d.low ++ (encOptF32 d.close ++ (encOptF32 d.volume
      ++ (encOptF32 d.bid ++ (encOptF32 d.ask
      ++ (encOptF32 d.bidSize ++ encOptF32 d.askSize)))))))) = some (d, []) := by
    refine decodeFields_enc _ d _ _ _ _ _ _ _ _ _
      (by rw [tb]; rfl) (by rw [tb]; rfl) (by rw [tb]; rfl)
      (by rw [tb]; rfl) (by rw [tb]; rfl) (by rw [tb]; rfl)
      (by rw [tb]; rfl) (by rw [tb]; rfl) (by rw [tb]; rfl)
      (fun r => readOptF32_enc _ r h0) (fun r => readOptF32_enc _ r h1)
      (fun r => readOptF32_enc _ r h2) (fun r => readOptF32_enc _ r h3)
      (fun r => readOptF32_enc _ r h4) (fun r => readOptF32_enc _ r h5)
      (fun r => readOptF32_enc _ r h6) (fun r => readOptF32_enc _ r h7)
      ?_
    have h := readOptF32_enc d.askSize [] h8
    simpa using h
  exact decodeUpdate_enc_gen sym _ _ _ ts _ d _
    (fun r => readString_enc sym r hsym4)
    (fun r => readUintLE_toLE 8 ts r hts8)
    (fun r => readUintLE_toLE 2 _ r hmask2)
    hF

/-- Witness for C2 at a concrete message: symbol "BTC", a concrete
timestamp, fields open / close / askSize present, the rest absent. -/
theorem updateEncodeDecodeRoundTrip_witness :
    ([66, 84, 67] : List Nat).length < 2 ^ 32 ∧ (1700000000000 : Nat) < 2 ^ 64 ∧
    UpdateDataWF ⟨some 42, none, none, some 7, none, none, none, none, some 9⟩ ∧
    decodeMessage (encodeUpdate ⟨[66, 84, 67], 1700000000000,
      ⟨some 42, none, none, some 7, none, none, none, none, some 9⟩⟩)
      = some ⟨[66, 84, 67], 1700000000000,
        ⟨some 42, none, none, some 7, none, none, none, none, some 9⟩⟩ :=
  ⟨by norm_num, by norm_num, by decide,
    updateEncodeDecodeRoundTrip ⟨[66, 84, 67], 1700000000000,
      ⟨some 42, none, none, some 7, none, none, none, none, some 9⟩⟩
      (by norm_num) (by norm_num) (by decide)⟩

/-! ## Streaming transport backoff
(`WebSocketClient`, packages/core/src/websocket/websocket-client.ts)

Only the reconnect-attempt counter and the delay computation are modelled:
they are the component's only persistent numeric state. Events that the
source handles without touching `reconnectAttempts` (close, error, send)
are modelled explicitly so that "resets only on open" is a statement about
every event, not just the two interesting ones. -/

/-- The two backoff strategies of `ConnectionOptions.reconnect.backoff`. -/
inductive Backoff
  | linear
  | exponential
deriving DecidableEq

/-- One transport event relevant to the reconnect counter. -/
inductive WSEvent
  | handleOpen
  | scheduleReconnect
  | handleClose
  | handleError
  | send
deriving DecidableEq

/-- WebSocketClient.scheduleReconnect (lines 146-165): compute the delay
from the current `reconnectAttempts`, then increment the counter. Returns
(delay, new counter). -/
def scheduleReconnect (backoff : Backoff) (baseDelay maxDelay attempts : Nat) : Nat × Nat :=
  let delay :=
    match backoff with
    | .exponential => min (baseDelay * 2 ^ attempts) maxDelay
    | .linear => min (baseDelay * (attempts + 1)) maxDelay
  (delay, attempts + 1)

/-- WebSocketClient.handleOpen (lines 50-54): reset the counter to 0. -/
def handleOpen (_attempts : Nat) : Nat := 0

/-- Effect of each event on `reconnectAttempts`: only `handleOpen` resets
it, only `scheduleReconnect` changes it otherwise (increment); every other
handler leaves it alone, as in the source. -/
def wsStep (backoff : Backoff) (baseDelay maxDelay attempts : Nat) : WSEvent → Nat
  | .handleOpen => handleOpen attempts
  | .scheduleReconnect => (scheduleReconnect backoff baseDelay maxDelay attempts).2
  | .handleClose => attempts
  | .handleError => attempts
  | .send => attempts

/-- The successive delays produced by `k` consecutive scheduled reconnects
starting from counter value `attempts`. -/
def reconnectDelays (backoff : Backoff) (baseDelay maxDelay attempts : Nat) : Nat → List Nat
  | 0 => []
  | k + 1 =>
    let p := scheduleReconnect backoff baseDelay maxDelay attempts
    p.1 :: reconnectDelays backoff baseDelay maxDelay p.2 k

/-- C7: reconnect delay is `min(base * 2 ^ n, maxDelay)` under exponential
backoff and `min(base * (n + 1), maxDelay)` under linear backoff for
attempt number `n`; the counter increments on every scheduled reconnect
and resets to 0 only on a successful open; with base 1000 and cap 30000
the exponential delays run 1000, 2000, 4000, 8000, 16000, 30000, 30000. -/
theorem reconnectBackoffSpec :
    (∀ base maxD n, (scheduleReconnect .exponential base maxD n).1 = min (base * 2 ^ n) maxD) ∧
    (∀ base maxD n, (scheduleReconnect .linear base maxD n).1 = min (base * (n + 1)) maxD) ∧
    (∀ b base maxD n, (scheduleReconnect b base maxD n).2 = n + 1) ∧
    (∀ b base maxD n e, wsStep b base maxD n e = 0 → e = WSEvent.handleOpen ∨ n = 0) ∧
    (∀ b base maxD n, wsStep b base maxD n WSEvent.handleOpen = 0) ∧
    reconnectDelays .exponential 1000 30000 0 7 = [1000, 2000, 4000, 8000, 16000, 30000, 30000] := by
  refine ⟨fun base maxD n => rfl, fun base maxD n => rfl, ?_, ?_, fun b base maxD n => rfl, by decide⟩
  · intro b base maxD n
    cases b <;> rfl
  · intro b base maxD n e h
    cases e <;> simp_all [wsStep, scheduleReconnect, handleOpen]

/-- Witness for C7: the reset-only-on-open conjunct applied at a concrete
non-open event. -/
theorem reconnectBackoffSpec_witness :
    WSEvent.handleClose = WSEvent.handleOpen ∨ (0 : Nat) = 0 :=
  reconnectBackoffSpec.2.2.2.1 Backoff.exponential 1000 30000 0 WSEvent.handleClose rfl

/-! ## Worker dispatch pool (`WorkerPool`, src/unnamed/part_011)

Workers are identified by numbers. `pending` is the id-keyed map of
in-flight tasks (kept as an insertion-ordered id list: the stored
resolve / reject closures are represented by the settlement outcome the
handler would produce). `execute` is modelled at the point where
`getWorker()` has returned: it takes the last worker of `available`
(JS `Array.pop`), stamps the task with `nextId`, and increments the
counter. -/

/-- Pool state: the available-worker stack, the pending ids, and the
monotone id counter. -/
structure WorkerPool where
  available : List Nat
  pending : List Nat
  nextId : Nat
deriving DecidableEq

/-- How the pool settles the caller's promise when a response arrives. -/
inductive Settlement
  | resolved
  | rejected
deriving DecidableEq

/-- WorkerPool.execute (lines 41-58), once a worker is available:
`available.pop()` takes the last worker, the task id is `nextId`
post-incremented, and the id becomes pending. Returns
(id, worker, new state); `none` when no worker is free (the source would
keep polling in `getWorker`). -/
def execute (st : WorkerPool) : Option (Nat × Nat × WorkerPool) :=
  match st.available.getLast? with
  | none => none
  | some w =>
    some (st.nextId, w,
      { available := st.available.dropLast,
        pending := st.pending ++ [st.nextId],
        nextId := st.nextId + 1 })

/-- WorkerPool.handleMessage (lines 76-91): look up the pending entry by
id; if absent, return with no state change and no settlement; otherwise
remove the entry, push the responding worker back onto `available`, and
resolve on success / reject on error. -/
def handleMessage (st : WorkerPool) (id worker : Nat) (success : Bool) :
    WorkerPool × Option Settlement :=
  if id ∈ st.pending then
    ({ available := st.available ++ [worker],
       pending := st.pending.erase id,
       nextId := st.nextId },
     some (if success then .resolved else .rejected))
  else (st, none)

theorem execute_some (st : WorkerPool) (id w : Nat) (st' : WorkerPool)
    (h : execute st = some (id, w, st')) :
    id = st.nextId ∧ st'.nextId = st.nextId + 1 ∧ st'.pending = st.pending ++ [id] ∧
    st.available.getLast? = some w ∧ st'.available = st.available.dropLast := by
  unfold execute at h
  cases hl : st.available.getLast? with
  | none => rw [hl] at h; exact absurd h (by simp)
  | some w0 =>
    rw [hl] at h
    simp only [Option.some.injEq, Prod.mk.injEq] at h
    obtain ⟨h1, h2, h3⟩ := h
    subst h1
    subst h3
    exact ⟨rfl, rfl, rfl, by rw [h2], rfl⟩

/-- C8: `execute` stamps tasks with the current counter value and
increments it, so ids of successive calls strictly increase; a response
for a pending id removes exactly that entry, returns the responding
worker to the pool, and resolves on success / rejects on error; a
response for an unknown id is dropped without changing any pool state. -/
theorem workerPoolDispatchSpec :
    (∀ st id w st', execute st = some (id, w, st') →
      id = st.nextId ∧ st'.nextId = st.nextId + 1 ∧
      st'.pending = st.pending ++ [id] ∧ st.available.getLast? = some w ∧
      st'.available = st.available.dropLast) ∧
    (∀ st st' st'' id id' w w', execute st = some (id, w, st') →
      execute st' = some (id', w', st'') → id < id') ∧
    (∀ st id worker success, id ∈ st.pending →
      handleMessage st id worker success
        = ({ available := st.available ++ [worker],
             pending := st.pending.erase id,
             nextId := st.nextId },
           some (if success then .resolved else .rejected))) ∧
    (∀ st id worker success, id ∉ st.pending →
      handleMessage st id worker success = (st, none)) := by
  refine ⟨fun st id w st' h => execute_some st id w st' h, ?_, ?_, ?_⟩
  · intro st st' st'' id id' w w' h h'
    obtain ⟨hid, hnext, -, -, -⟩ := execute_some st id w st' h
    obtain ⟨hid', -, -, -, -⟩ := execute_some st' id' w' st'' h'
    omega
  · intro st id worker success h
    simp [handleMessage, h]
  · intro st id worker success h
    simp [handleMessage, h]

/-- Witness for C8 at a concrete pool: one execute step from a two-worker
pool, then a matching response and an unknown-id response. -/
theorem workerPoolDispatchSpec_witness :
    (5 = ({ available := [10, 11], pending := [4], nextId := 5 } : WorkerPool).nextId ∧
      ({ available := [10], pending := [4, 5], nextId := 6 } : WorkerPool).nextId
        = ({ available := [10, 11], pending := [4], nextId := 5 } : WorkerPool).nextId + 1 ∧
      ({ available := [10], pending := [4, 5], nextId := 6 } : WorkerPool).pending
        = ({ available := [10, 11], pending := [4], nextId := 5 } : WorkerPool).pending ++ [5] ∧
      ({ available := [10, 11], pending := [4], nextId := 5 } :
        WorkerPool).available.getLast? = some 11 ∧
      ({ available := [10], pending := [4, 5], nextId := 6 } : WorkerPool).available
        = ({ available := [10, 11], pending := [4], nextId := 5 } :
          WorkerPool).available.dropLast) ∧
    handleMessage { available := [10], pending := [4, 5], nextId := 6 } 4 11 true
      = ({ available := [10, 11], pending := [5], nextId := 6 }, some Settlement.resolved) ∧
    handleMessage { available := [10], pending := [4, 5], nextId := 6 } 99 11 true
      = ({ available := [10], pending := [4, 5], nextId := 6 }, none) := by
  refine ⟨workerPoolDispatchSpec.1 { available := [10, 11], pending := [4], nextId := 5 }
    5 11 { available := [10], pending := [4, 5], nextId := 6 } (by decide), ?_, ?_⟩
  · have h := workerPoolDispatchSpec.2.2.1 { available := [10], pending := [4, 5], nextId := 6 }
      4 11 true (by decide)
    simpa using h
  · exact workerPoolDispatchSpec.2.2.2 { available := [10], pending := [4, 5], nextId := 6 }
      99 11 true (by decide)

/-! ## Staging buffers (`RingBuffer`, packages/utils/src/memory.ts, and
`DataBuffer`, packages/data/src/buffer.ts)

The ring payload is a fixed-length byte list; `write` / `read` move a
cyclic write / read cursor byte by byte exactly as the source loops do.
`DataBuffer` wraps a ring of its capacity plus the public `_length`
counter (field `length` below). -/

/-- Byte store with cyclic cursors (class RingBuffer). -/
structure RingBufferM where
  buf : List Nat
  writeOffset : Nat
  readOffset : Nat
  size : Nat
deriving DecidableEq

/-- The byte-by-byte write loop of RingBuffer.write: write each byte at
`writeOffset`, stepping the offset modulo capacity. Returns the new
payload and the final offset. -/
def writeBytes (buf : List Nat) (w : Nat) : List Nat → List Nat × Nat
  | [] => (buf, w)
  | b :: bs => writeBytes (buf.set w b) ((w + 1) % buf.length) bs

/-- RingBuffer.write (lines 55-70): refuse (returning `false`, with no
mutation) when the data does not fit into `available = capacity - size`;
otherwise write cyclically and grow `size`. -/
def ringWrite (r : RingBufferM) (d : List Nat) : Bool × RingBufferM :=
  if r.buf.length - r.size < d.length then (false, r)
  else
    let p := writeBytes r.buf r.writeOffset d
    (true, { buf := p.1, writeOffset := p.2, readOffset := r.readOffset,
             size := r.size + d.length })

/-- The byte-by-byte read loop of RingBuffer.read: collect `n` bytes from
`readOffset`, stepping the offset modulo capacity. Returns the bytes and
the final offset. -/
def readBytesCyc (buf : List Nat) : Nat → Nat → List Nat × Nat
  | off, 0 => ([], off)
  | off, n + 1 =>
    let p := readBytesCyc buf ((off + 1) % buf.length) n
    (buf.getD off 0 :: p.1, p.2)

/-- RingBuffer.read (lines 72-88): `null` when fewer than `len` bytes are
stored; otherwise consume `len` bytes, advancing `readOffset` and
shrinking `size` (a destructive read). -/
def ringRead (r : RingBufferM) (len : Nat) : Option (List Nat) × RingBufferM :=
  if r.size < len then (none, r)
  else
    let p := readBytesCyc r.buf r.readOffset len
    (some p.1, { buf := r.buf, writeOffset := r.writeOffset, readOffset := p.2,
                 size := r.size - len })

/-- DataBuffer: a ring of `capacity` zero bytes plus the public `_length`
counter. -/
structure DataBufferM where
  ring : RingBufferM
  length : Nat
deriving DecidableEq

/-- The DataBuffer constructor: fresh zeroed ring, length 0. -/
def mkDataBuffer (capacity : Nat) : DataBufferM :=
  { ring := { buf := List.replicate capacity 0, writeOffset := 0, readOffset := 0, size := 0 },
    length := 0 }

/-- DataBuffer.append (lines 20-25): throw `Buffer overflow` when the ring
write fails, else grow `_length`. -/
def DataBufferM.append (db : DataBufferM) (d : List Nat) : Except String DataBufferM :=
  match ringWrite db.ring d with
  | (false, _) => .error "Buffer overflow"
  | (true, r') => .ok { ring := r', length := db.length + d.length }

/-- The `while (offset < this._length)` loop of DataBuffer.slice: read
chunks of `min 1024 remaining` bytes, stopping early when the ring returns
`null`. Fuel is the initial `_length`, an upper bound on the number of
iterations since every chunk is nonempty. -/
def sliceLoop : Nat → RingBufferM → Nat → List Nat × RingBufferM
  | 0, r, _ => ([], r)
  | fuel + 1, r, remaining =>
    if remaining = 0 then ([], r)
    else
      match ringRead r (min 1024 remaining) with
      | (none, r') => ([], r')
      | (some chunk, r') =>
        let p := sliceLoop fuel r' (remaining - chunk.length)
        (chunk ++ p.1, p.2)

/-- DataBuffer.slice() with no range (lines 32-53, also the `data` getter):
allocate `_length` zero bytes, overwrite the prefix with whatever chunks
the ring still yields, and return it together with the mutated buffer
(`_length` itself is not changed). -/
def DataBufferM.slice (db : DataBufferM) : List Nat × DataBufferM :=
  let p := sliceLoop db.length db.ring db.length
  (p.1 ++ List.replicate (db.length - p.1.length) 0, { ring := p.2, length := db.length })

/-- Sequential appends from a fresh buffer, stopping at the first failure
(the thrown overflow). -/
def appendBatches (db : DataBufferM) : List (List Nat) → Except String DataBufferM
  | [] => .ok db
  | d :: ds =>
    match DataBufferM.append db d with
    | .error e => .error e
    | .ok db' => appendBatches db' ds

/-- C9: `append` fails with the overflow error exactly when the incoming
byte count exceeds `capacity - size`; the failed ring write mutates
nothing; and a fitting append succeeds, growing both `_length` and the
stored byte count by the data length. -/
theorem dataBufferAppendOverflow :
    (∀ db d, (∃ e, DataBufferM.append db d = .error e)
      ↔ db.ring.buf.length - db.ring.size < d.length) ∧
    (∀ db d, db.ring.buf.length - db.ring.size < d.length →
      ringWrite db.ring d = (false, db.ring) ∧
      DataBufferM.append db d = .error "Buffer overflow") ∧
    (∀ db d, ¬(db.ring.buf.length - db.ring.size < d.length) →
      ∃ db', DataBufferM.append db d = .ok db' ∧
        db'.length = db.length + d.length ∧
        db'.ring.size = db.ring.size + d.length) := by
  refine ⟨fun db d => ?_, fun db d h => ?_, fun db d h => ?_⟩
  · constructor
    · rintro ⟨e, he⟩
      by_contra hlt
      simp [DataBufferM.append, ringWrite, hlt] at he
    · intro hlt
      exact ⟨"Buffer overflow", by simp [DataBufferM.append, ringWrite, hlt]⟩
  · constructor
    · simp [ringWrite, h]
    · simp [DataBufferM.append, ringWrite, h]
  · have hw : ringWrite db.ring d
        = (true,
          { buf := (writeBytes db.ring.buf db.ring.writeOffset d).1,
            writeOffset := (writeBytes db.ring.buf db.ring.writeOffset d).2,
            readOffset := db.ring.readOffset,
            size := db.ring.size + d.length }) := by
      simp [ringWrite, h]
    unfold DataBufferM.append
    rw [hw]
    exact ⟨_, rfl, rfl, rfl⟩

/-- Witness for C9: a 4-byte buffer holding 3 bytes rejects a 2-byte
append and accepts a 1-byte append. -/
theorem dataBufferAppendOverflow_witness :
    ((∃ e, DataBufferM.append
        ⟨⟨[7, 8, 9, 0], 3, 0, 3⟩, 3⟩ [1, 2] = .error e)
      ↔ (4 - 3 < 2)) ∧
    (ringWrite ⟨[7, 8, 9, 0], 3, 0, 3⟩ [1, 2] = (false, ⟨[7, 8, 9, 0], 3, 0, 3⟩) ∧
      DataBufferM.append ⟨⟨[7, 8, 9, 0], 3, 0, 3⟩, 3⟩ [1, 2] = .error "Buffer overflow") ∧
    ∃ db', DataBufferM.append ⟨⟨[7, 8, 9, 0], 3, 0, 3⟩, 3⟩ [1] = .ok db' ∧
      db'.length = 3 + 1 ∧ db'.ring.size = 3 + 1 := by
  refine ⟨?_, ?_, ?_⟩
  · have h := dataBufferAppendOverflow.1 ⟨⟨[7, 8, 9, 0], 3, 0, 3⟩, 3⟩ [1, 2]
    simpa using h
  · have h := dataBufferAppendOverflow.2.1 ⟨⟨[7, 8, 9, 0], 3, 0, 3⟩, 3⟩ [1, 2] (by decide)
    simpa using h
  · have h := dataBufferAppendOverflow.2.2 ⟨⟨[7, 8, 9, 0], 3, 0, 3⟩, 3⟩ [1] (by decide)
    simpa using h

/-- Ring state of a buffer that has absorbed the bytes `A` from fresh and
has handed out the first `c` of them to destructive reads: the payload
zone `A` sits at the front of the ring (appends from fresh never wrap
while `A.length ≤ cap`), the rest is still zero. -/
def ringZone (cap : Nat) (A : List Nat) (c : Nat) : RingBufferM :=
  { buf := A ++ List.replicate (cap - A.length) 0,
    writeOffset := A.length % cap,
    readOffset := c % cap,
    size := A.length - c }

/-- DataBuffer state after appending exactly the bytes `A` from fresh. -/
def zoneBuffer (cap : Nat) (A : List Nat) : DataBufferM :=
  { ring := ringZone cap A 0, length := A.length }

theorem mkDataBuffer_zone (cap : Nat) : mkDataBuffer cap = zoneBuffer cap [] := by
  simp [mkDataBuffer, zoneBuffer, ringZone]

theorem writeBytes_nil (buf : List Nat) (w : Nat) : writeBytes buf w [] = (buf, w) := rfl

theorem writeBytes_cons (buf : List Nat) (w b : Nat) (bs : List Nat) :
    writeBytes buf w (b :: bs) = writeBytes (buf.set w b) ((w + 1) % buf.length) bs := rfl

theorem writeBytes_zone (d : List Nat) : ∀ (A : List Nat) (z : Nat),
    d.length ≤ z → 1 ≤ z →
    writeBytes (A ++ List.replicate z 0) A.length d
      = (A ++ d ++ List.replicate (z - d.length) 0, (A.length + d.length) % (A.length + z)) := by
  induction d with
  | nil =>
    intro A z _ hz
    rw [writeBytes_nil]
    simp only [List.append_nil, List.length_nil, Nat.add_zero, Nat.sub_zero]
    rw [Nat.mod_eq_of_lt (by omega)]
  | cons b bs ih =>
    intro A z hlen hz
    obtain ⟨z', rfl⟩ : ∃ z', z = z' + 1 := ⟨z - 1, by omega⟩
    have hset : (A ++ List.replicate (z' + 1) 0).set A.length b
        = (A ++ [b]) ++ List.replicate z' 0 := by
      rw [List.set_append_right _ _ (le_refl A.length)]
      simp [List.replicate_succ]
    have hlb : (A ++ List.replicate (z' + 1) 0).length = A.length + (z' + 1) := by simp
    rw [writeBytes_cons, hset, hlb]
    cases bs with
    | nil =>
      rw [writeBytes_nil]
      simp [List.append_assoc]
    | cons c cs =>
      have hz' : 1 ≤ z' := by
        simp only [List.length_cons] at hlen
        omega
      have hmod : (A.length + 1) % (A.length + (z' + 1)) = A.length + 1 :=
        Nat.mod_eq_of_lt (by omega)
      have hlen' : (c :: cs).length ≤ z' := by
        simp only [List.length_cons] at hlen ⊢
        omega
      rw [hmod]
      have hstep := ih (A ++ [b]) z' hlen' hz'
      rw [show (A ++ [b]).length = A.length + 1 by simp] at hstep
      rw [hstep]
      have h1 : A.length + 1 + (c :: cs).length = A.length + (b :: c :: cs).length := by
        simp
        omega
      have h2 : A.length + 1 + z' = A.length + (z' + 1) := by omega
      have h3 : z' - (c :: cs).length = z' + 1 - (b :: c :: cs).length := by
        simp
      rw [h1, h2, h3]
      simp [List.append_assoc]

theorem append_zone (cap : Nat) (A d : List Nat) (hle : A.length + d.length ≤ cap) :
    DataBufferM.append (zoneBuffer cap A) d = .ok (zoneBuffer cap (A ++ d)) := by
  have hA : A.length ≤ cap := by omega
  have hlb : (A ++ List.replicate (cap - A.length) 0).length = cap := by
    simp
    omega
  have hguard : ¬((A ++ List.replicate (cap - A.length) 0).length - (A.length - 0)
      < d.length) := by
    rw [hlb]
    omega
  have hrw : ringWrite (ringZone cap A 0) d = (true, ringZone cap (A ++ d) 0) := by
    simp only [ringZone, ringWrite]
    rw [if_neg hguard]
    cases hd : d with
    | nil =>
      rw [writeBytes_nil]
      simp
    | cons b bs =>
      have hdpos : 1 ≤ d.length := by rw [hd]; simp
      have hAlt : A.length < cap := by omega
      have hz1 : 1 ≤ cap - A.length := by omega
      have hdz : d.length ≤ cap - A.length := by omega
      have hw := writeBytes_zone d A (cap - A.length) hdz hz1
      rw [show A.length + (cap - A.length) = cap by omega] at hw
      rw [← hd, Nat.mod_eq_of_lt hAlt, hw]
      have hbuf : A ++ d ++ List.replicate (cap - A.length - d.length) 0
          = (A ++ d) ++ List.replicate (cap - (A ++ d).length) 0 := by
        rw [show cap - A.length - d.length = cap - (A ++ d).length by simp; omega]
      have hoff : (A.length + d.length) % cap = (A ++ d).length % cap := by simp
      have hsz : A.length - 0 + d.length = (A ++ d).length - 0 := by simp
      rw [hbuf, hoff, hsz]
  simp only [DataBufferM.append, zoneBuffer, hrw]
  simp

theorem appendBatches_zone (cap : Nat) : ∀ (ds : List (List Nat)) (A : List Nat),
    A.length + (ds.map List.length).sum ≤ cap →
    appendBatches (zoneBuffer cap A) ds = .ok (zoneBuffer cap (A ++ ds.flatten)) := by
  intro ds
  induction ds with
  | nil => intro A h; simp [appendBatches]
  | cons d ds ih =>
    intro A h
    simp only [List.map_cons, List.sum_cons] at h
    have h1 : A.length + d.length ≤ cap := by omega
    have h2 : (A ++ d).length + (ds.map List.length).sum ≤ cap := by simp; omega
    simp only [appendBatches, append_zone cap A d h1]
    rw [ih (A ++ d) h2]
    simp [List.append_assoc]

theorem readBytesCyc_nil (buf : List Nat) (off : Nat) : readBytesCyc buf off 0 = ([], off) := rfl

theorem readBytesCyc_succ (buf : List Nat) (off n : Nat) :
    readBytesCyc buf off (n + 1)
      = ((buf.getD off 0) :: (readBytesCyc buf ((off + 1) % buf.length) n).1,
        (readBytesCyc buf ((off + 1) % buf.length) n).2) := rfl

theorem drop_take_getD (A : List Nat) (k : Nat) (hk : k < A.length) :
    A.drop k = A.getD k 0 :: A.drop (k + 1) := by
  rw [List.getD_eq_getElem A 0 hk]
  exact List.drop_eq_getElem_cons hk

theorem readBytesCyc_zone (n : Nat) : ∀ (k : Nat) (A : List Nat) (z : Nat),
    k + n ≤ A.length → k < A.length + z →
    readBytesCyc (A ++ List.replicate z 0) k n
      = ((A.drop k).take n, (k + n) % (A.length + z)) := by
  induction n with
  | zero =>
    intro k A z _ hk
    rw [readBytesCyc_nil]
    simp [Nat.mod_eq_of_lt hk]
  | succ n ih =>
    intro k A z hkn hk
    have hkA : k < A.length := by omega
    have hlb : (A ++ List.replicate z 0).length = A.length + z := by simp
    have hget : (A ++ List.replicate z 0).getD k 0 = A.getD k 0 := by
      rw [List.getD_append _ _ _ _ hkA]
    rw [readBytesCyc_succ, hlb, hget]
    by_cases hlt : k + 1 < A.length + z
    · have hm : (k + 1) % (A.length + z) = k + 1 := Nat.mod_eq_of_lt hlt
      rw [hm, ih (k + 1) A z (by omega) hlt, Prod.ext_iff]
      refine ⟨?_, ?_⟩
      · show A.getD k 0 :: List.take n (List.drop (k + 1) A) = List.take (n + 1) (List.drop k A)
        rw [drop_take_getD A k hkA, List.take_succ_cons]
      · show (k + 1 + n) % (A.length + z) = (k + (n + 1)) % (A.length + z)
        congr 1
        omega
    · have hEq : k + 1 = A.length + z := by omega
      have hn0 : n = 0 := by omega
      have hz0 : z = 0 := by omega
      have hAL : A.length = k + 1 := by omega
      subst hn0
      rw [hEq, Nat.mod_self, readBytesCyc_nil, Prod.ext_iff]
      refine ⟨?_, rfl⟩
      show A.getD k 0 :: ([] : List Nat) = List.take (0 + 1) (List.drop k A)
      rw [drop_take_getD A k hkA, List.take_succ_cons]
      simp

theorem ringRead_zone (A : List Nat) (cap consumed len : Nat)
    (hc : consumed + len ≤ A.length) (hA : A.length ≤ cap) (hl : 1 ≤ len) :
    ringRead (ringZone cap A consumed) len
      = (some ((A.drop consumed).take len), ringZone cap A (consumed + len)) := by
  have hclt : consumed < A.length := by omega
  have hcap : consumed < cap := by omega
  have hcm : consumed % cap = consumed := Nat.mod_eq_of_lt hcap
  have hzone := readBytesCyc_zone len consumed A (cap - A.length) (by omega) (by omega)
  rw [show A.length + (cap - A.length) = cap by omega] at hzone
  have hguard : ¬((ringZone cap A consumed).size < len) := by
    simp only [ringZone]
    omega
  simp only [ringRead, ringZone] at hguard ⊢
  rw [if_neg hguard, hcm, hzone, Nat.sub_sub]

theorem sliceLoop_drain (fuel : Nat) : ∀ (A : List Nat) (cap consumed : Nat),
    consumed ≤ A.length → A.length ≤ cap → A.length - consumed ≤ fuel →
    sliceLoop fuel (ringZone cap A consumed) (A.length - consumed)
      = (A.drop consumed, ringZone cap A A.length) := by
  induction fuel with
  | zero =>
    intro A cap consumed hc hA hf
    have hcl : consumed = A.length := by omega
    subst hcl
    simp [sliceLoop, List.drop_length]
  | succ fuel ih =>
    intro A cap consumed hc hA hf
    by_cases hr : A.length - consumed = 0
    · have hcl : consumed = A.length := by omega
      subst hcl
      simp [sliceLoop, List.drop_length]
    · have hlen1 : 1 ≤ min 1024 (A.length - consumed) := by omega
      have hlenle : min 1024 (A.length - consumed) ≤ A.length - consumed :=
        Nat.min_le_right _ _
      have hread := ringRead_zone A cap consumed (min 1024 (A.length - consumed))
        (by omega) hA hlen1
      have hchunklen : ((A.drop consumed).take (min 1024 (A.length - consumed))).length
          = min 1024 (A.length - consumed) := by
        rw [List.length_take, List.length_drop]
        omega
      simp only [sliceLoop]
      rw [if_neg hr, hread]
      simp only [hchunklen]
      rw [show A.length - consumed - min 1024 (A.length - consumed)
        = A.length - (consumed + min 1024 (A.length - consumed)) by omega]
      rw [ih A cap (consumed + min 1024 (A.length - consumed)) (by omega) hA (by omega)]
      simp only [Prod.mk.injEq]
      constructor
      · rw [← List.drop_drop]
        exact List.take_append_drop _ (A.drop consumed)
      · trivial

theorem slice_zone_first (cap : Nat) (A : List Nat) (h : A.length ≤ cap) :
    (zoneBuffer cap A).slice = (A, { ring := ringZone cap A A.length, length := A.length }) := by
  have hd := sliceLoop_drain A.length A cap 0 (by omega) h (by omega)
  rw [Nat.sub_zero, List.drop_zero] at hd
  simp only [DataBufferM.slice, zoneBuffer]
  rw [hd]
  simp

theorem slice_zone_second (cap : Nat) (A : List Nat) :
    DataBufferM.slice { ring := ringZone cap A A.length, length := A.length }
      = (List.replicate A.length 0, { ring := ringZone cap A A.length, length := A.length }) := by
  cases hA : A.length with
  | zero =>
    simp [DataBufferM.slice, sliceLoop]
  | succ m =>
    have hsz : (ringZone cap A (m + 1)).size = 0 := by
      simp [ringZone, hA]
    have hread : ringRead (ringZone cap A (m + 1)) (min 1024 (m + 1))
        = (none, ringZone cap A (m + 1)) := by
      simp only [ringRead, hsz]
      rw [if_pos (by omega)]
    simp only [DataBufferM.slice, hA, sliceLoop]
    rw [if_neg (by omega), hread]
    simp

/-- C10: `slice()` with no range is destructive. From a fresh DataBuffer,
after any sequence of successful appends, the first `slice()` returns all
appended bytes in append order but drains the ring (`size` drops to 0)
while the public `length` is unchanged; a second `slice()` on the
resulting state returns a buffer of the same byte length that is entirely
zero-filled. -/
theorem dataBufferSliceDestructive (cap : Nat) (ds : List (List Nat))
    (h : (ds.map List.length).sum ≤ cap) :
    ∃ db, appendBatches (mkDataBuffer cap) ds = .ok db ∧
      db.length = ds.flatten.length ∧
      db.slice.1 = ds.flatten ∧
      db.slice.2.length = db.length ∧
      db.slice.2.ring.size = 0 ∧
      db.slice.2.slice.1 = List.replicate ds.flatten.length 0 ∧
      db.slice.2.slice.1.length = db.slice.1.length := by
  have hA : ds.flatten.length ≤ cap := by rw [List.length_flatten]; exact h
  have hb := appendBatches_zone cap ds [] (by simpa using h)
  rw [List.nil_append] at hb
  rw [mkDataBuffer_zone]
  refine ⟨zoneBuffer cap ds.flatten, hb, rfl, ?_, ?_, ?_, ?_, ?_⟩
  · rw [slice_zone_first cap ds.flatten hA]
  · rw [slice_zone_first cap ds.flatten hA]
    rfl
  · rw [slice_zone_first cap ds.flatten hA]
    simp [ringZone]
  · rw [slice_zone_first cap ds.flatten hA]
    show (DataBufferM.slice _).1 = _
    rw [slice_zone_second cap ds.flatten]
  · rw [slice_zone_first cap ds.flatten hA]
    show (DataBufferM.slice _).1.length = _
    rw [slice_zone_second cap ds.flatten]
    simp

/-- Witness for C10: two appends totalling 4 bytes into an 8-byte buffer. -/
theorem dataBufferSliceDestructive_witness :
    (([[1, 2, 3], [4]] : List (List Nat)).map List.length).sum ≤ 8 ∧
    ∃ db, appendBatches (mkDataBuffer 8) [[1, 2, 3], [4]] = .ok db ∧
      db.length = ([[1, 2, 3], [4]] : List (List Nat)).flatten.length ∧
      db.slice.1 = ([[1, 2, 3], [4]] : List (List Nat)).flatten ∧
      db.slice.2.length = db.length ∧
      db.slice.2.ring.size = 0 ∧
      db.slice.2.slice.1
        = List.replicate ([[1, 2, 3], [4]] : List (List Nat)).flatten.length 0 ∧
      db.slice.2.slice.1.length = db.slice.1.length :=
  ⟨by decide, dataBufferSliceDestructive 8 [[1, 2, 3], [4]] (by decide)⟩

/-! ## Shared ring channel
(`SharedDataManager`, packages/core/src/data/shared-data-manager.ts)

Each series owns an independent slice of the payload buffer
(`seriesOffset = seriesIndex * maxDataPoints * pointSize`) plus a
`(writeOffset, count)` metadata pair; a channel is modelled per series with
its slice as a point list (one list cell per 24-byte candle — the ring
logic never splits a point, byte offsets are always point-aligned
multiples of 24). The manager is the bounds-checked list of channels. -/

/-- One series channel: payload slots, the write cursor (in points, i.e.
`writeOffset / 24`), and the logical count. -/
structure SharedChannel (α : Type) where
  buf : List α
  writeIdx : Nat
  count : Nat
deriving DecidableEq

/-- Fresh channel: zeroed payload (`d` is the zero point), cursors 0. -/
def mkChannel (cap : Nat) (d : α) : SharedChannel α :=
  ⟨List.replicate cap d, 0, 0⟩

/-- One iteration of the appendData for-loop: wrap the cursor to the start
of the slice when the next point would cross `maxOffset`, write the point,
advance. -/
def appendOne (cap : Nat) (st : SharedChannel α) (p : α) : SharedChannel α :=
  let w := if cap < st.writeIdx + 1 then 0 else st.writeIdx
  ⟨st.buf.set w p, w + 1, st.count⟩

/-- SharedDataManager.appendData (lines 33-73) on one series: write all
points through the wrapping cursor, then store the new cursor and
`count = min(count + points, maxDataPoints)`. -/
def appendData (cap : Nat) (st : SharedChannel α) (ps : List α) : SharedChannel α :=
  let st' := ps.foldl (appendOne cap) st
  ⟨st'.buf, st'.writeIdx, min (st.count + ps.length) cap⟩

/-- SharedDataManager.getData (lines 75-106) on one series: empty when
`startIndex ≥ count`, else `min count (dataCount - startIndex)` points
copied from physical slots `(startIndex + i) % maxDataPoints` — the read
does not consult the write cursor. -/
def getData (cap : Nat) (d : α) (st : SharedChannel α) (startIndex count' : Nat) : List α :=
  if startIndex < st.count then
    (List.range (min count' (st.count - startIndex))).map
      (fun i => st.buf.getD ((startIndex + i) % cap) d)
  else []

/-- SharedDataManager.clear (lines 144-149) on one series: reset cursor and
count (the payload bytes are left in place). -/
def clearChannel (st : SharedChannel α) : SharedChannel α :=
  ⟨st.buf, 0, 0⟩

/-- SharedDataManager.getDataCount (lines 162-165) on one series. -/
def getDataCount (st : SharedChannel α) : Nat := st.count

/-- The manager: configuration plus one channel per series. -/
structure SharedDataManager (α : Type) where
  maxDataPoints : Nat
  seriesCount : Nat
  series : List (SharedChannel α)

/-- The SharedDataManager constructor. -/
def mkManager (cap seriesCount : Nat) (d : α) : SharedDataManager α :=
  ⟨cap, seriesCount, List.replicate seriesCount (mkChannel cap d)⟩

/-- Bounds-checked appendData: throws `Series index out of bounds` when
`seriesIndex >= seriesCount`. -/
def mAppendData (m : SharedDataManager α) (si : Nat) (ps : List α) :
    Except String (SharedDataManager α) :=
  if m.seriesCount ≤ si then .error "Series index out of bounds"
  else .ok ⟨m.maxDataPoints, m.seriesCount,
    m.series.modify (fun ch => appendData m.maxDataPoints ch ps) si⟩

/-- clear(seriesIndex) at the manager level (no bounds check in source). -/
def mClear (m : SharedDataManager α) (si : Nat) : SharedDataManager α :=
  ⟨m.maxDataPoints, m.seriesCount, m.series.modify clearChannel si⟩

/-- getDataCount(seriesIndex) at the manager level. -/
def mGetDataCount (m : SharedDataManager α) (si : Nat) : Nat :=
  getDataCount (m.series.getD si ⟨[], 0, 0⟩)

/-- The operations a client can run against the channel metadata. -/
inductive ChannelOp (α : Type)
  | append (si : Nat) (ps : List α)
  | clear (si : Nat)

/-- Apply one operation; a thrown out-of-bounds append leaves the manager
unchanged (the exception propagates before any mutation). -/
def applyOp (m : SharedDataManager α) : ChannelOp α → SharedDataManager α
  | .append si ps =>
    match mAppendData m si ps with
    | .ok m' => m'
    | .error _ => m
  | .clear si => mClear m si

/-- Run a sequence of operations from a given manager state. -/
def runOps (m : SharedDataManager α) (ops : List (ChannelOp α)) : SharedDataManager α :=
  ops.foldl applyOp m

theorem mod_succ_eq (a n : Nat) :
    (a + 1) % n = if a % n + 1 = n then 0 else a % n + 1 := by
  rcases Nat.eq_zero_or_pos n with hn | hn
  · subst hn; simp
  · by_cases hc : a % n + 1 = n
    · rw [if_pos hc]
      have hd := Nat.div_add_mod a n
      have h1 : a + 1 = n * (a / n) + n := by omega
      rw [h1, ← Nat.mul_succ, Nat.mul_mod_right]
    · rw [if_neg hc]
      have hd := Nat.div_add_mod a n
      have hlt : a % n < n := Nat.mod_lt _ hn
      have h1 : a + 1 = a % n + 1 + n * (a / n) := by omega
      rw [h1, Nat.mul_comm, Nat.add_mul_mod_self_right]
      exact Nat.mod_eq_of_lt (by omega)

theorem getD_set_self {α : Type} (l : List α) (i : Nat) (a d : α) (h : i < l.length) :
    (l.set i a).getD i d = a := by
  simp [List.getD, List.getElem?_set_self, h]

theorem getD_set_ne {α : Type} (l : List α) (i j : Nat) (a d : α) (h : i ≠ j) :
    (l.set i a).getD j d = l.getD j d := by
  simp [List.getD, List.getElem?_set_ne h]

theorem getD_concat_length {α : Type} (l : List α) (p d : α) :
    (l ++ [p]).getD l.length d = p := by
  rw [List.getD_eq_getElem _ _ (by simp)]
  simp [List.getElem_concat_length]

theorem getD_append_left {α : Type} (l r : List α) (n : Nat) (d : α) (h : n < l.length) :
    (l ++ r).getD n d = l.getD n d := by
  rw [List.getD_append _ _ _ _ h]

/-- Characterization of the appendData write loop from a fresh channel:
counts stay 0 (the loop itself does not touch the count), the buffer keeps
its capacity, the cursor ends at `(N - 1) % cap + 1` after `N ≥ 1` points,
and physical slot `j` holds the LAST point whose index is congruent to `j`
modulo the capacity. -/
theorem appendFold_spec {α : Type} (cap : Nat) (d : α) (hcap : 0 < cap) (ps : List α) :
    (ps.foldl (appendOne cap) (mkChannel cap d)).count = 0 ∧
    (ps.foldl (appendOne cap) (mkChannel cap d)).buf.length = cap ∧
    (ps.foldl (appendOne cap) (mkChannel cap d)).writeIdx
      = (if ps.length = 0 then 0 else (ps.length - 1) % cap + 1) ∧
    ∀ j, j < cap → j < ps.length →
      (ps.foldl (appendOne cap) (mkChannel cap d)).buf.getD j d
        = ps.getD (ps.length - 1 - ((ps.length - 1 - j) % cap)) d := by
  induction ps using List.reverseRecOn with
  | nil =>
    refine ⟨rfl, by simp [mkChannel], rfl, ?_⟩
    intro j _ hj0
    simp at hj0
  | append_singleton ps p ih =>
    obtain ⟨ihc, ihl, ihw, ihb⟩ := ih
    have hfold : (ps ++ [p]).foldl (appendOne cap) (mkChannel cap d)
        = appendOne cap (ps.foldl (appendOne cap) (mkChannel cap d)) p := by
      rw [List.foldl_append]
      rfl
    have hw : (if cap < (ps.foldl (appendOne cap) (mkChannel cap d)).writeIdx + 1 then 0
        else (ps.foldl (appendOne cap) (mkChannel cap d)).writeIdx) = ps.length % cap := by
      rw [ihw]
      by_cases h0 : ps.length = 0
      · rw [if_pos h0, h0]
        rw [if_neg (by omega)]
        simp
      · rw [if_neg h0]
        have hm : (ps.length - 1) % cap < cap := Nat.mod_lt _ hcap
        have hsucc := mod_succ_eq (ps.length - 1) cap
        rw [show ps.length - 1 + 1 = ps.length by omega] at hsucc
        by_cases hc : (ps.length - 1) % cap + 1 = cap
        · rw [if_pos (by omega), hsucc, if_pos hc]
        · rw [if_neg (by omega), hsucc, if_neg hc]
    refine ⟨?_, ?_, ?_, ?_⟩
    · rw [hfold]
      exact ihc
    · rw [hfold]
      simp only [appendOne, List.length_set]
      exact ihl
    · rw [hfold]
      show (if cap < _ + 1 then 0 else _) + 1 = _
      rw [hw]
      have hlen : (ps ++ [p]).length = ps.length + 1 := by simp
      rw [hlen]
      rw [if_neg (by omega)]
      simp
    · intro j hj hjlen
      rw [hfold]
      show ((ps.foldl (appendOne cap) (mkChannel cap d)).buf.set
        (if cap < (ps.foldl (appendOne cap) (mkChannel cap d)).writeIdx + 1 then 0
          else (ps.foldl (appendOne cap) (mkChannel cap d)).writeIdx) p).getD j d = _
      rw [hw]
      have hlen : (ps ++ [p]).length = ps.length + 1 := by simp
      rw [hlen, Nat.add_sub_cancel]
      by_cases hje : ps.length % cap = j
      · rw [← hje]
        rw [getD_set_self _ _ _ _ (by rw [ihl]; exact Nat.mod_lt _ hcap)]
        have hd := Nat.div_add_mod ps.length cap
        have h1 : ps.length - ps.length % cap = cap * (ps.length / cap) := by omega
        rw [h1, Nat.mul_mod_right, Nat.sub_zero]
        rw [getD_concat_length]
      · rw [getD_set_ne _ _ _ _ _ hje]
        have hjN : j < ps.length := by
          rcases Nat.lt_or_ge j ps.length with h | h
          · exact h
          · exfalso
            have hjp : j = ps.length := by omega
            refine hje ?_
            rw [hjp]
            exact Nat.mod_eq_of_lt (hjp ▸ hj)
        have hm : (ps.length - 1 - j) % cap < cap := Nat.mod_lt _ hcap
        have hms := mod_succ_eq (ps.length - 1 - j) cap
        rw [show ps.length - 1 - j + 1 = ps.length - j by omega] at hms
        by_cases hc : (ps.length - 1 - j) % cap + 1 = cap
        · exfalso
          have hd := Nat.div_add_mod (ps.length - 1 - j) cap
          have h1 : ps.length = j + cap * ((ps.length - 1 - j) / cap + 1) := by
            rw [Nat.mul_add, Nat.mul_one]
            omega
          have h2 : ps.length % cap = j := by
            rw [h1, Nat.add_mul_mod_self_left]
            exact Nat.mod_eq_of_lt hj
          exact hje h2
        · rw [hms] at *
          rw [if_neg hc] at *
          have hle : (ps.length - 1 - j) % cap ≤ ps.length - 1 - j :=
            Nat.mod_le _ _
          have hidx : ps.length - (ps.length - 1 - j) % cap - 1
              = ps.length - 1 - ((ps.length - 1 - j) % cap) := by omega
          have htgt : ps.length - ((ps.length - 1 - j) % cap + 1)
              = ps.length - 1 - ((ps.length - 1 - j) % cap) := by omega
          rw [htgt]
          rw [getD_append_left _ _ _ _ (by omega)]
          exact ihb j hj hjN

theorem rot_index_eq (cap k j : Nat) (hcap : 0 < cap) (hk : 0 < k) (hj : j < cap) :
    k + ((j + (cap - k % cap) % cap) % cap) = cap + k - 1 - ((cap + k - 1 - j) % cap) := by
  have hm : k % cap < cap := Nat.mod_lt _ hcap
  have hmk : k % cap ≤ k := Nat.mod_le _ _
  have hd := Nat.div_add_mod k cap
  have hsplit : cap + k - 1 - j = cap + k % cap - 1 - j + cap * (k / cap) := by omega
  have hA : (cap + k - 1 - j) % cap = (cap + k % cap - 1 - j) % cap := by
    rw [hsplit, Nat.mul_comm, Nat.add_mul_mod_self_right]
  by_cases hm0 : k % cap = 0
  · have hr : (cap - k % cap) % cap = 0 := by
      rw [hm0, Nat.sub_zero, Nat.mod_self]
    have hy : (cap + k % cap - 1 - j) % cap = cap - 1 - j := by
      rw [hm0, Nat.add_zero]
      exact Nat.mod_eq_of_lt (by omega)
    rw [hr, hA, hy, Nat.add_zero, Nat.mod_eq_of_lt hj]
    omega
  · have hr : (cap - k % cap) % cap = cap - k % cap := Nat.mod_eq_of_lt (by omega)
    rw [hr, hA]
    by_cases hjm : j < k % cap
    · have hy : cap + k % cap - 1 - j = cap + (k % cap - 1 - j) := by omega
      have hy2 : (cap + k % cap - 1 - j) % cap = k % cap - 1 - j := by
        rw [hy, Nat.add_mod_left]
        exact Nat.mod_eq_of_lt (by omega)
      have hx : (j + (cap - k % cap)) % cap = j + (cap - k % cap) :=
        Nat.mod_eq_of_lt (by omega)
      rw [hy2, hx]
      omega
    · have hy2 : (cap + k % cap - 1 - j) % cap = cap + k % cap - 1 - j :=
        Nat.mod_eq_of_lt (by omega)
      have hx0 : j + (cap - k % cap) = cap + (j - k % cap) := by omega
      have hx : (j + (cap - k % cap)) % cap = j - k % cap := by
        rw [hx0, Nat.add_mod_left]
        exact Nat.mod_eq_of_lt (by omega)
      rw [hy2, hx]
      omega

theorem getD_modify {α : Type} (l : List α) (f : α → α) (i j : Nat) (d : α) :
    (l.modify f i).getD j d
      = (if i = j then (l[j]?.map f).getD d else l.getD j d) := by
  simp only [List.getD, List.getElem?_modify]
  cases h : l[j]? with
  | none => by_cases hij : i = j <;> simp [hij, h]
  | some a => by_cases hij : i = j <;> simp [hij, h]

/-- One operation preserves the per-series count bound (new counts are
clamped by `min (count + len) maxDataPoints`; clear resets to 0). -/
theorem applyOp_count_le {α : Type} (cap : Nat) (m : SharedDataManager α) (op : ChannelOp α)
    (hmax : m.maxDataPoints = cap)
    (h : ∀ i, (m.series.getD i ⟨[], 0, 0⟩).count ≤ cap) :
    (applyOp m op).maxDataPoints = cap ∧
    ∀ i, ((applyOp m op).series.getD i ⟨[], 0, 0⟩).count ≤ cap := by
  cases op with
  | append si ps =>
    simp only [applyOp, mAppendData]
    by_cases hb : m.seriesCount ≤ si
    · rw [if_pos hb]
      exact ⟨hmax, h⟩
    · rw [if_neg hb]
      refine ⟨hmax, ?_⟩
      intro i
      rw [getD_modify]
      by_cases hsi : si = i
      · rw [if_pos hsi]
        cases hche : m.series[i]? with
        | none => simp
        | some ch =>
          simp only [hche, Option.map_some', Option.getD_some]
          show min (ch.count + ps.length) m.maxDataPoints ≤ cap
          omega
      · rw [if_neg hsi]
        exact h i
  | clear si =>
    simp only [applyOp, mClear]
    refine ⟨hmax, ?_⟩
    intro i
    rw [getD_modify]
    by_cases hsi : si = i
    · rw [if_pos hsi]
      cases hche : m.series[i]? with
      | none => simp
      | some ch => simp [clearChannel, getDataCount]
    · rw [if_neg hsi]
      exact h i

/-- The count bound is an invariant of every run of append / clear
operations. -/
theorem runOps_count_le {α : Type} (cap : Nat) : ∀ (ops : List (ChannelOp α))
    (m : SharedDataManager α), m.maxDataPoints = cap →
    (∀ i, (m.series.getD i ⟨[], 0, 0⟩).count ≤ cap) →
    ∀ si, mGetDataCount (runOps m ops) si ≤ cap := by
  intro ops
  induction ops with
  | nil =>
    intro m hmax h si
    exact h si
  | cons op ops ih =>
    intro m hmax h si
    obtain ⟨hmax', h'⟩ := applyOp_count_le cap m op hmax h
    exact ih (applyOp m op) hmax' h' si

/-- C1 counterexample: capacity 2, append the three points 10, 11, 12 in
one batch. The two most recent points in chronological order are
`[11, 12]`, but `getData` returns the physical slot order `[12, 11]`
(slot 0 was overwritten by the wrapped third point and the read never
consults the write cursor), so the most recent points are NOT retrievable
in order. -/
theorem ringChannelWraparound_counterexample :
    getData 2 (0 : Nat) (appendData 2 (mkChannel 2 0) [10, 11, 12]) 0 2 = [12, 11] ∧
    [(12 : Nat), 11] ≠ [11, 12] := by decide

/-- C1 (amended): after writing `capacity + k` points (k > 0) in one
`appendData` batch, `getData(seriesIndex, 0, capacity)` returns exactly
the `capacity` most recent points, but rotated left by
`(capacity - k % capacity) % capacity` relative to chronological order
(equivalently: in physical slot order starting at slot 0, not at the
oldest point); `getDataCount` equals capacity there, and after any
sequence of appendData / clear operations `getDataCount` never exceeds
the configured `maxDataPoints` for any series index. -/
theorem ringChannelWraparoundRotated {α : Type} (cap k : Nat) (d : α) (ps : List α)
    (hcap : 0 < cap) (hk : 0 < k) (hlen : ps.length = cap + k) :
    getData cap d (appendData cap (mkChannel cap d) ps) 0 cap
      = (ps.drop k).rotate ((cap - k % cap) % cap) ∧
    getDataCount (appendData cap (mkChannel cap d) ps) = cap ∧
    ∀ (sc : Nat) (ops : List (ChannelOp α)) (si : Nat),
      mGetDataCount (runOps (mkManager cap sc d) ops) si ≤ cap := by
  obtain ⟨hc0, hblen, hwidx, hbuf⟩ := appendFold_spec cap d hcap ps
  have hst : appendData cap (mkChannel cap d) ps
      = ⟨(ps.foldl (appendOne cap) (mkChannel cap d)).buf,
         (ps.foldl (appendOne cap) (mkChannel cap d)).writeIdx, cap⟩ := by
    have hminv : min ((mkChannel cap d).count + ps.length) cap = cap := by
      have hmk : (mkChannel cap d).count = 0 := rfl
      rw [hmk, hlen]
      omega
    unfold appendData
    rw [hminv]
  refine ⟨?_, by rw [hst]; rfl, ?_⟩
  · rw [hst]
    unfold getData
    rw [if_pos (by exact hcap)]
    show (List.range (min cap (cap - 0))).map _ = _
    rw [Nat.sub_zero, Nat.min_self]
    have hdlen : (ps.drop k).length = cap := by
      rw [List.length_drop, hlen]
      omega
    apply List.ext_getElem
    · simp [List.length_rotate, hdlen]
    · intro j h1 h2
      have hjcap : j < cap := by simpa using h1
      rw [List.getElem_map, List.getElem_range]
      have hmod : (0 + j) % cap = j := by
        rw [Nat.zero_add]
        exact Nat.mod_eq_of_lt hjcap
      rw [hmod]
      rw [hbuf j hjcap (by omega)]
      rw [List.getElem_rotate]
      have hidx : ((j + (cap - k % cap) % cap) % (ps.drop k).length)
          = (j + (cap - k % cap) % cap) % cap := by rw [hdlen]
      simp only [hidx]
      rw [List.getElem_drop]
      rw [List.getD_eq_getElem ps d (by
        rw [hlen]
        have := rot_index_eq cap k j hcap hk hjcap
        have hmlt : (cap + k - 1 - j) % cap < cap := Nat.mod_lt _ hcap
        omega)]
      congr 1
      rw [hlen]
      exact (rot_index_eq cap k j hcap hk hjcap).symm
  · intro sc ops si
    refine runOps_count_le cap ops (mkManager cap sc d) rfl ?_ si
    intro i
    show ((List.replicate sc (mkChannel cap d)).getD i ⟨[], 0, 0⟩).count ≤ cap
    by_cases hi : i < sc
    · rw [List.getD_eq_getElem _ _ (by simpa using hi)]
      simp [mkChannel]
    · rw [List.getD_eq_default _ _ (by simpa using hi)]
      exact Nat.zero_le cap

/-- Witness for the amended C1 at capacity 2, k = 1. -/
theorem ringChannelWraparoundRotated_witness :
    ((0 : Nat) < 2 ∧ (0 : Nat) < 1 ∧ ([10, 11, 12] : List Nat).length = 2 + 1) ∧
    (getData 2 (0 : Nat) (appendData 2 (mkChannel 2 0) [10, 11, 12]) 0 2
        = (([10, 11, 12] : List Nat).drop 1).rotate ((2 - 1 % 2) % 2) ∧
      getDataCount (appendData 2 (mkChannel 2 (0 : Nat)) [10, 11, 12]) = 2 ∧
      ∀ (sc : Nat) (ops : List (ChannelOp Nat)) (si : Nat),
        mGetDataCount (runOps (mkManager 2 sc (0 : Nat)) ops) si ≤ 2) :=
  ⟨⟨by decide, by decide, by decide⟩,
    ringChannelWraparoundRotated 2 1 0 [10, 11, 12] (by decide) (by decide) (by decide)⟩

/-! ## Aggregation worker (`handleAggregate`, src/unnamed/part_005 lines 164-229)

Candle prices, volumes and times are modelled in `ℚ`, which carries the
exact values of the decoded f32s; grouping uses a JS `Map` keyed by
`Math.floor(time / interval) * interval`, modelled as an
insertion-ordered association list; the final `sort((a, b) => a.time -
b.time)` is modelled by insertion sort (the bucket keys are pairwise
distinct, so every comparison sort produces this same list). -/

/-- An OHLCV candle (`open` is a Lean keyword, hence `open_`). -/
structure Candle where
  time : ℚ
  open_ : ℚ
  high : ℚ
  low : ℚ
  close : ℚ
  volume : ℚ
deriving DecidableEq

/-- The group key: `Math.floor(candle.time / interval) * interval`. -/
def bucketKey (iv : ℚ) (c : Candle) : ℚ := ⌊c.time / iv⌋ * iv

/-- One step of the grouping loop: push onto the existing entry for this
key, or append a fresh entry (JS `Map` preserves insertion order). -/
def insertCandle (acc : List (ℚ × List Candle)) (k : ℚ) (c : Candle) :
    List (ℚ × List Candle) :=
  if acc.any (fun e => e.1 = k) then
    acc.map (fun e => if e.1 = k then (e.1, e.2 ++ [c]) else e)
  else acc ++ [(k, [c])]

/-- The grouping loop of handleAggregate. -/
def groupByInterval (iv : ℚ) (candles : List Candle) : List (ℚ × List Candle) :=
  candles.foldl (fun acc c => insertCandle acc (bucketKey iv c) c) []

/-- `Math.max(...xs)` over a nonempty list (0 for the empty list, which
never occurs: groups are nonempty). -/
def maxListQ : List ℚ → ℚ
  | [] => 0
  | x :: xs => xs.foldl max x

/-- `Math.min(...xs)` over a nonempty list. -/
def minListQ : List ℚ → ℚ
  | [] => 0
  | x :: xs => xs.foldl min x

/-- The all-zero candle used as the (never relevant) default for
head / last lookups on nonempty groups. -/
def dummyCandle : Candle := ⟨0, 0, 0, 0, 0, 0⟩

/-- Aggregate one group: open of the first, close of the last, max high,
min low, summed volume, stamped with the BUCKET time. -/
def aggregateGroup (t : ℚ) (g : List Candle) : Candle :=
  { time := t,
    open_ := (g.headD dummyCandle).open_,
    close := (g.getLastD dummyCandle).close,
    high := maxListQ (g.map (fun c => c.high)),
    low := minListQ (g.map (fun c => c.low)),
    volume := (g.map (fun c => c.volume)).foldl (· + ·) 0 }

/-- Insertion step of the ascending-by-time sort. -/
def insertSorted (c : Candle) : List Candle → List Candle
  | [] => [c]
  | x :: xs => if c.time ≤ x.time then c :: x :: xs else x :: insertSorted c xs

/-- `aggregated.sort((a, b) => a.time - b.time)`, as insertion sort. -/
def sortByTime (l : List Candle) : List Candle := l.foldr insertSorted []

/-- handleAggregate: group by bucket key, aggregate each group (the
`group.length === 0` guard of the source never fires: every stored group
is nonempty), sort ascending by time. -/
def handleAggregate (candles : List Candle) (iv : ℚ) : List Candle :=
  sortByTime ((groupByInterval iv candles).map (fun e => aggregateGroup e.1 e.2))

/-- The in-order group of candles with bucket key `t`. -/
def groupOf (iv : ℚ) (cs : List Candle) (t : ℚ) : List Candle :=
  cs.filter (fun c => bucketKey iv c = t)

theorem insertSorted_perm (c : Candle) (l : List Candle) :
    List.Perm (insertSorted c l) (c :: l) := by
  induction l with
  | nil => rfl
  | cons x xs ih =>
    simp only [insertSorted]
    by_cases h : c.time ≤ x.time
    · rw [if_pos h]
    · rw [if_neg h]
      exact (List.Perm.cons x ih).trans (List.Perm.swap c x xs)

theorem insertSorted_sorted (c : Candle) (l : List Candle)
    (h : l.Pairwise (fun a b => a.time ≤ b.time)) :
    (insertSorted c l).Pairwise (fun a b => a.time ≤ b.time) := by
  induction l with
  | nil => simp [insertSorted]
  | cons x xs ih =>
    simp only [insertSorted]
    rw [List.pairwise_cons] at h
    obtain ⟨hx, hxs⟩ := h
    by_cases hc : c.time ≤ x.time
    · rw [if_pos hc]
      rw [List.pairwise_cons]
      refine ⟨?_, List.pairwise_cons.mpr ⟨hx, hxs⟩⟩
      intro y hy
      rcases List.mem_cons.mp hy with rfl | hy2
      · exact hc
      · exact le_trans hc (hx y hy2)
    · rw [if_neg hc]
      rw [List.pairwise_cons]
      refine ⟨?_, ih hxs⟩
      intro y hy
      rcases List.mem_cons.mp ((insertSorted_perm c xs).mem_iff.mp hy) with rfl | hy2
      · exact le_of_not_le hc
      · exact hx y hy2

theorem sortByTime_perm (l : List Candle) : List.Perm (sortByTime l) l := by
  induction l with
  | nil => rfl
  | cons x xs ih =>
    show List.Perm (insertSorted x (sortByTime xs)) (x :: xs)
    exact (insertSorted_perm x (sortByTime xs)).trans (List.Perm.cons x ih)

theorem sortByTime_sorted (l : List Candle) :
    (sortByTime l).Pairwise (fun a b => a.time ≤ b.time) := by
  induction l with
  | nil => simp [sortByTime]
  | cons x xs ih => exact insertSorted_sorted x (sortByTime xs) ih

theorem groupOf_append (iv : ℚ) (cs : List Candle) (c : Candle) (t : ℚ) :
    groupOf iv (cs ++ [c]) t
      = groupOf iv cs t ++ (if bucketKey iv c = t then [c] else []) := by
  unfold groupOf
  rw [List.filter_append]
  congr 1
  simp only [List.filter_cons, List.filter_nil]
  by_cases h : bucketKey iv c = t <;> simp [h]

/-- Invariant of the grouping loop: every stored entry holds exactly the
in-order filter of the candles with its key (hence is nonempty), and the
stored keys are exactly the bucket keys occurring in the input. -/
theorem groupBy_spec (iv : ℚ) (cs : List Candle) :
    (∀ e ∈ groupByInterval iv cs, e.2 = groupOf iv cs e.1 ∧ e.2 ≠ []) ∧
    (∀ t : ℚ, (∃ e ∈ groupByInterval iv cs, e.1 = t) ↔ ∃ c ∈ cs, bucketKey iv c = t) := by
  induction cs using List.reverseRecOn with
  | nil =>
    constructor
    · intro e he
      simp [groupByInterval] at he
    · intro t
      simp [groupByInterval]
  | append_singleton cs c ih =>
    obtain ⟨ih1, ih2⟩ := ih
    have hfold : groupByInterval iv (cs ++ [c])
        = insertCandle (groupByInterval iv cs) (bucketKey iv c) c := by
      unfold groupByInterval
      rw [List.foldl_append]
      rfl
    by_cases hk : (groupByInterval iv cs).any (fun e => e.1 = bucketKey iv c)
    · rw [hfold]
      unfold insertCandle
      rw [if_pos hk]
      constructor
      · intro e' he'
        rw [List.mem_map] at he'
        obtain ⟨e, heG, heq⟩ := he'
        obtain ⟨hfe, hne⟩ := ih1 e heG
        by_cases hek : e.1 = bucketKey iv c
        · rw [if_pos hek] at heq
          subst heq
          refine ⟨?_, by simp⟩
          show e.2 ++ [c] = groupOf iv (cs ++ [c]) e.1
          rw [groupOf_append, if_pos hek.symm, ← hfe]
        · rw [if_neg hek] at heq
          subst heq
          refine ⟨?_, hne⟩
          show e.2 = groupOf iv (cs ++ [c]) e.1
          rw [groupOf_append, if_neg (fun h => hek h.symm)]
          simp [hfe]
      · intro t
        constructor
        · rintro ⟨e', he', hte⟩
          rw [List.mem_map] at he'
          obtain ⟨e, heG, heq⟩ := he'
          have hfst : e'.1 = e.1 := by
            by_cases hek : e.1 = bucketKey iv c
            · rw [if_pos hek] at heq
              rw [← heq]
            · rw [if_neg hek] at heq
              rw [← heq]
          obtain ⟨c', hc', hkc'⟩ := ih2 t |>.mp ⟨e, heG, by rw [← hfst, hte]⟩
          exact ⟨c', List.mem_append_left _ hc', hkc'⟩
        · rintro ⟨c', hc', hkc'⟩
          rw [List.mem_append] at hc'
          rcases hc' with hc' | hc'
          · obtain ⟨e, heG, hte⟩ := ih2 t |>.mpr ⟨c', hc', hkc'⟩
            refine ⟨if e.1 = bucketKey iv c then (e.1, e.2 ++ [c]) else e,
              List.mem_map.mpr ⟨e, heG, rfl⟩, ?_⟩
            by_cases hek : e.1 = bucketKey iv c
            · rw [if_pos hek]
              exact hte
            · rw [if_neg hek]
              exact hte
          · rw [List.mem_singleton] at hc'
            obtain ⟨e, heG, hek⟩ := List.any_eq_true.mp hk
            simp only [decide_eq_true_eq] at hek
            refine ⟨(e.1, e.2 ++ [c]),
              List.mem_map.mpr ⟨e, heG, by rw [if_pos hek]⟩, ?_⟩
            show e.1 = t
            rw [hek, ← hc']
            exact hkc'
    · rw [hfold]
      unfold insertCandle
      rw [if_neg hk]
      have hnok : ∀ e ∈ groupByInterval iv cs, e.1 ≠ bucketKey iv c := by
        intro e he heq
        exact hk (List.any_eq_true.mpr ⟨e, he, by simp [heq]⟩)
      have hnoc : groupOf iv cs (bucketKey iv c) = [] := by
        rw [groupOf, List.filter_eq_nil_iff]
        intro x hx hpx
        simp only [decide_eq_true_eq] at hpx
        obtain ⟨e, heG, hek⟩ := ih2 (bucketKey iv c) |>.mpr ⟨x, hx, hpx⟩
        exact hnok e heG hek
      constructor
      · intro e' he'
        rw [List.mem_append] at he'
        rcases he' with he | he
        · obtain ⟨hfe, hne⟩ := ih1 e' he
          refine ⟨?_, hne⟩
          rw [groupOf_append, if_neg (fun h => hnok e' he h.symm)]
          simp [hfe]
        · rw [List.mem_singleton] at he
          subst he
          refine ⟨?_, by simp⟩
          show [c] = groupOf iv (cs ++ [c]) (bucketKey iv c)
          rw [groupOf_append, if_pos rfl, hnoc]
          rfl
      · intro t
        constructor
        · rintro ⟨e', he', hte⟩
          rw [List.mem_append] at he'
          rcases he' with he | he
          · obtain ⟨c', hc', hkc'⟩ := ih2 t |>.mp ⟨e', he, hte⟩
            exact ⟨c', List.mem_append_left _ hc', hkc'⟩
          · rw [List.mem_singleton] at he
            subst he
            exact ⟨c, List.mem_append_right _ (List.mem_singleton_self c), hte.symm ▸ rfl⟩
        · rintro ⟨c', hc', hkc'⟩
          rw [List.mem_append] at hc'
          rcases hc' with hc' | hc'
          · obtain ⟨e, heG, hte⟩ := ih2 t |>.mpr ⟨c', hc', hkc'⟩
            exact ⟨e, List.mem_append_left _ heG, hte⟩
          · rw [List.mem_singleton] at hc'
            refine ⟨(bucketKey iv c, [c]),
              List.mem_append_right _ (List.mem_singleton_self _), ?_⟩
            show bucketKey iv c = t
            rw [← hc']
            exact hkc'

/-- C3 counterexample: a single candle at time 5 aggregated with interval
10 comes back with `time = 0` (the bucket key), so a single-candle group
does NOT yield that candle unchanged. -/
theorem handleAggregate_singleCandle_counterexample :
    handleAggregate [⟨5, 1, 2, 0, 1, 7⟩] 10 = [⟨0, 1, 2, 0, 1, 7⟩] ∧
    ([⟨(0 : ℚ), 1, 2, 0, 1, 7⟩] : List Candle) ≠ [⟨5, 1, 2, 0, 1, 7⟩] := by
  constructor
  · show sortByTime _ = _
    norm_num [handleAggregate, groupByInterval, insertCandle, bucketKey, aggregateGroup,
      sortByTime, insertSorted, maxListQ, minListQ, List.foldl]
  · decide

/-- C3 (amended): `handleAggregate` groups candles by
`floor(time / interval) * interval`; each output candle aggregates the
in-order group with its bucket key — open of the first, close of the
last, max high, min low, summed volume — the output is sorted ascending
by bucket time, no empty group is emitted and every input candle's bucket
appears; but a group of a single candle yields that candle with its time
replaced by the bucket key (unchanged only when the candle sits on a
bucket boundary). -/
theorem handleAggregateSpec (cs : List Candle) (iv : ℚ) (hiv : 0 < iv) :
    (handleAggregate cs iv).Pairwise (fun a b => a.time ≤ b.time) ∧
    (∀ out ∈ handleAggregate cs iv,
      groupOf iv cs out.time ≠ [] ∧
      out.open_ = ((groupOf iv cs out.time).headD dummyCandle).open_ ∧
      out.close = ((groupOf iv cs out.time).getLastD dummyCandle).close ∧
      out.high = maxListQ ((groupOf iv cs out.time).map (fun c => c.high)) ∧
      out.low = minListQ ((groupOf iv cs out.time).map (fun c => c.low)) ∧
      out.volume = ((groupOf iv cs out.time).map (fun c => c.volume)).foldl (· + ·) 0) ∧
    (∀ c ∈ cs, ∃ out ∈ handleAggregate cs iv, out.time = bucketKey iv c) ∧
    (∀ out ∈ handleAggregate cs iv, ∀ c, groupOf iv cs out.time = [c] →
      out = ⟨out.time, c.open_, c.high, c.low, c.close, c.volume⟩) := by
  obtain ⟨hg1, hg2⟩ := groupBy_spec iv cs
  have hmem : ∀ out, out ∈ handleAggregate cs iv
      ↔ out ∈ (groupByInterval iv cs).map (fun e => aggregateGroup e.1 e.2) :=
    fun out =>
      (sortByTime_perm ((groupByInterval iv cs).map (fun e => aggregateGroup e.1 e.2))).mem_iff
  have hsplit : ∀ out ∈ handleAggregate cs iv,
      ∃ e ∈ groupByInterval iv cs, aggregateGroup e.1 e.2 = out := by
    intro out hout
    rw [hmem] at hout
    exact List.mem_map.mp hout
  refine ⟨sortByTime_sorted _, ?_, ?_, ?_⟩
  · intro out hout
    obtain ⟨e, he, heq⟩ := hsplit out hout
    obtain ⟨hfe, hne⟩ := hg1 e he
    subst heq
    simp only [aggregateGroup, ← hfe]
    exact ⟨hne, trivial, trivial, trivial, trivial, trivial⟩
  · intro c hc
    obtain ⟨e, he, hte⟩ := (hg2 (bucketKey iv c)).mpr ⟨c, hc, rfl⟩
    refine ⟨aggregateGroup e.1 e.2, (hmem _).mpr (List.mem_map.mpr ⟨e, he, rfl⟩), hte⟩
  · intro out hout c hgc
    obtain ⟨e, he, heq⟩ := hsplit out hout
    obtain ⟨hfe, _⟩ := hg1 e he
    subst heq
    have he2 : e.2 = [c] := by
      rw [hfe]
      exact hgc
    rw [he2]
    simp [aggregateGroup, maxListQ, minListQ, dummyCandle]

/-- Witness for the amended C3: two candles falling into two buckets. -/
theorem handleAggregateSpec_witness :
    (0 : ℚ) < 10 ∧
    ((handleAggregate [⟨5, 1, 2, 0, 1, 7⟩, ⟨15, 3, 4, 2, 3, 9⟩] 10).Pairwise
        (fun a b => a.time ≤ b.time) ∧
      (∀ out ∈ handleAggregate [⟨5, 1, 2, 0, 1, 7⟩, ⟨15, 3, 4, 2, 3, 9⟩] 10,
        groupOf 10 [⟨5, 1, 2, 0, 1, 7⟩, ⟨15, 3, 4, 2, 3, 9⟩] out.time ≠ [] ∧
        out.open_ = ((groupOf 10 [⟨5, 1, 2, 0, 1, 7⟩, ⟨15, 3, 4, 2, 3, 9⟩]
          out.time).headD dummyCandle).open_ ∧
        out.close = ((groupOf 10 [⟨5, 1, 2, 0, 1, 7⟩, ⟨15, 3, 4, 2, 3, 9⟩]
          out.time).getLastD dummyCandle).close ∧
        out.high = maxListQ ((groupOf 10 [⟨5, 1, 2, 0, 1, 7⟩, ⟨15, 3, 4, 2, 3, 9⟩]
          out.time).map (fun c => c.high)) ∧
        out.low = minListQ ((groupOf 10 [⟨5, 1, 2, 0, 1, 7⟩, ⟨15, 3, 4, 2, 3, 9⟩]
          out.time).map (fun c => c.low)) ∧
        out.volume = ((groupOf 10 [⟨5, 1, 2, 0, 1, 7⟩, ⟨15, 3, 4, 2, 3, 9⟩]
          out.time).map (fun c => c.volume)).foldl (· + ·) 0) ∧
      (∀ c ∈ ([⟨5, 1, 2, 0, 1, 7⟩, ⟨15, 3, 4, 2, 3, 9⟩] : List Candle),
        ∃ out ∈ handleAggregate [⟨5, 1, 2, 0, 1, 7⟩, ⟨15, 3, 4, 2, 3, 9⟩] 10,
          out.time = bucketKey 10 c) ∧
      (∀ out ∈ handleAggregate [⟨5, 1, 2, 0, 1, 7⟩, ⟨15, 3, 4, 2, 3, 9⟩] 10, ∀ c,
        groupOf 10 [⟨5, 1, 2, 0, 1, 7⟩, ⟨15, 3, 4, 2, 3, 9⟩] out.time = [c] →
          out = ⟨out.time, c.open_, c.high, c.low, c.close, c.volume⟩)) :=
  ⟨by norm_num,
    handleAggregateSpec [⟨5, 1, 2, 0, 1, 7⟩, ⟨15, 3, 4, 2, 3, 9⟩] 10 (by norm_num)⟩

/-! ## Decimation (`handleDecimate`, src/unnamed/part_005 lines 107-161;
`douglasPeucker`, src/unnamed/part_010 lines 145-169;
`DataDecimator.decimate`, packages/data/src/buffer.ts lines 58-85)

Coordinates are `ℚ`. The source compares euclidean distances (square
roots); here every distance is carried SQUARED and the source's
`maxDistance > tolerance` test becomes `tol * tol < maxDistSq`, which is
equivalent whenever `0 ≤ tol` — and both call sites use the default
tolerance `(maxY - minY) / 100 ≥ 0`. All theorems below assume `0 ≤ tol`.
`douglasPeucker` recurses on strictly shorter segments only when the max
squared distance is positive, which `0 ≤ tol` guarantees in the recursive
branch, so a fuel of `points.length` always suffices (proved below as
fuel independence). -/

/-- A 2-d point as in the source `Vec2`. -/
structure Vec2 where
  x : ℚ
  y : ℚ
deriving DecidableEq

/-- Squared euclidean distance (`Vec2.distance` squared). -/
def distSq (a b : Vec2) : ℚ := (b.x - a.x) ^ 2 + (b.y - a.y) ^ 2

/-- perpendicularDistance (lines 171-186), squared: distance from `point`
to its projection onto the line through `lineStart` and `lineEnd`;
distance to `lineStart` when the two coincide. -/
def perpendicularDistanceSq (point lineStart lineEnd : Vec2) : ℚ :=
  let dx := lineEnd.x - lineStart.x
  let dy := lineEnd.y - lineStart.y
  if dx = 0 ∧ dy = 0 then distSq point lineStart
  else
    let t := ((point.x - lineStart.x) * dx + (point.y - lineStart.y) * dy)
      / (dx * dx + dy * dy)
    distSq point ⟨lineStart.x + t * dx, lineStart.y + t * dy⟩

/-- The max-distance scan of douglasPeucker
(`for i in 1..len-2, if distance > maxDistance update`), over indices
`1 … n`: strict `<` keeps the EARLIEST index on ties. -/
def scanMax (f : Nat → ℚ) (n : Nat) : ℚ × Nat :=
  (List.range' 1 n).foldl (fun md i => if md.1 < f i then (f i, i) else md) (0, 0)

/-- The `(maxDistance, maxIndex)` pair computed by douglasPeucker's loop:
squared perpendicular distance of each interior point from the
first-to-last chord, scanned over indices `1 … points.length - 2`. -/
def dpScan (points : List Vec2) : ℚ × Nat :=
  scanMax (fun i => perpendicularDistanceSq (points.getD i ⟨0, 0⟩)
    (points.headD ⟨0, 0⟩) (points.getLastD ⟨0, 0⟩)) (points.length - 2)

/-- douglasPeucker with explicit fuel (the source recursion is not
structurally decreasing; `points.length` fuel suffices, proved below). -/
def dpFuel : Nat → List Vec2 → ℚ → List Vec2
  | 0, points, _ => points
  | fuel + 1, points, tol =>
    if points.length ≤ 2 then points
    else
      if tol * tol < (dpScan points).1 then
        (dpFuel fuel (points.take ((dpScan points).2 + 1)) tol).dropLast
          ++ dpFuel fuel (points.drop (dpScan points).2) tol
      else [points.headD ⟨0, 0⟩, points.getLastD ⟨0, 0⟩]

/-- douglasPeucker (lines 145-169). -/
def douglasPeucker (points : List Vec2) (tol : ℚ) : List Vec2 :=
  dpFuel points.length points tol

/-- The algorithm selector of the decimate worker task. -/
inductive DecAlgorithm
  | douglasPeucker
  | nthPoint
  | lttb
  | other
deriving DecidableEq

/-- handleDecimate (lines 107-161): no-op when the input already fits the
target; Douglas-Peucker with the default tolerance `(maxY - minY) / 100`;
nth-point keeps every `ceil(len / target)`-th point; the `lttb` case is a
TODO in the source and returns the input, as does any unknown selector. -/
def handleDecimate (points : List Vec2) (targetPoints : Nat)
    (algorithm : DecAlgorithm) : List Vec2 :=
  if points.length ≤ targetPoints then points
  else
    match algorithm with
    | .douglasPeucker =>
      douglasPeucker points ((maxListQ (points.map (fun p => p.y))
        - minListQ (points.map (fun p => p.y))) / 100)
    | .nthPoint =>
      let step := (points.length + targetPoints - 1) / targetPoints
      (points.enum.filter (fun p => p.1 % step = 0)).map (fun p => p.2)
    | .lttb => points
    | .other => points

/-- A scalar time-series point of `DataDecimator` (f32 pair). -/
structure TimePoint where
  time : ℚ
  value : ℚ
deriving DecidableEq

/-- DataDecimator.decimate (buffer.ts lines 58-85): no-op when the input
fits; otherwise run Douglas-Peucker over `(index, value)` pairs with the
default tolerance and map the surviving x-coordinates back to points. -/
def decimate (points : List TimePoint) (targetPoints : Nat) : List TimePoint :=
  if points.length ≤ targetPoints then points
  else
    let vec2Points := points.enum.map (fun p => (⟨(p.1 : ℚ), p.2.value⟩ : Vec2))
    let tolerance := (maxListQ (points.map (fun p => p.value))
      - minListQ (points.map (fun p => p.value))) / 100
    let simplified := douglasPeucker vec2Points tolerance
    simplified.map (fun v => points.getD (round v.x).toNat ⟨0, 0⟩)

theorem dpFuel_length_le (fuel : Nat) :
    ∀ (points : List Vec2) (tol : ℚ), (dpFuel fuel points tol).length ≤ points.length := by
  induction fuel with
  | zero => intro points tol; exact le_refl _
  | succ f ih =>
    intro points tol
    simp only [dpFuel]
    by_cases h2 : points.length ≤ 2
    · rw [if_pos h2]
    · rw [if_neg h2]
      by_cases hlt : tol * tol < (dpScan points).1
      · rw [if_pos hlt]
        have hL := ih (points.take ((dpScan points).2 + 1)) tol
        have hR := ih (points.drop (dpScan points).2) tol
        have hdl : ((dpFuel f (points.take ((dpScan points).2 + 1)) tol).dropLast).length
            = (dpFuel f (points.take ((dpScan points).2 + 1)) tol).length - 1 :=
          List.length_dropLast _
        rw [List.length_append, hdl]
        rw [List.length_take] at hL
        rw [List.length_drop] at hR
        omega
      · rw [if_neg hlt]
        simp only [List.length_cons, List.length_nil]
        omega

theorem handleDecimate_of_le (points : List Vec2) (target : Nat) (algo : DecAlgorithm)
    (h : points.length ≤ target) : handleDecimate points target algo = points := by
  unfold handleDecimate
  rw [if_pos h]

theorem decimate_of_le (points : List TimePoint) (target : Nat)
    (h : points.length ≤ target) : decimate points target = points := by
  unfold decimate
  rw [if_pos h]

theorem handleDecimate_length_le (points : List Vec2) (target : Nat) (algo : DecAlgorithm) :
    (handleDecimate points target algo).length ≤ points.length := by
  unfold handleDecimate
  by_cases h : points.length ≤ target
  · rw [if_pos h]
  · rw [if_neg h]
    cases algo with
    | douglasPeucker => exact dpFuel_length_le _ _ _
    | nthPoint =>
      simp only [List.length_map]
      calc (List.filter _ points.enum).length ≤ points.enum.length :=
            List.length_filter_le _ _
        _ = points.length := List.enum_length
    | lttb => exact le_refl _
    | other => exact le_refl _

theorem decimate_length_le (points : List TimePoint) (target : Nat) :
    (decimate points target).length ≤ points.length := by
  unfold decimate
  by_cases h : points.length ≤ target
  · rw [if_pos h]
  · rw [if_neg h]
    simp only [List.length_map]
    calc (douglasPeucker (points.enum.map (fun p => (⟨(p.1 : ℚ), p.2.value⟩ : Vec2)))
          ((maxListQ (points.map (fun p => p.value))
            - minListQ (points.map (fun p => p.value))) / 100)).length
        ≤ (points.enum.map (fun p => (⟨(p.1 : ℚ), p.2.value⟩ : Vec2))).length :=
          dpFuel_length_le _ _ _
      _ = points.enum.length := List.length_map _ _
      _ = points.length := List.enum_length

/-- C4: for both decimation entry points (the worker task `handleDecimate` over
2-d points, for every algorithm selector, and `DataDecimator.decimate` over
time-series points), an input that already fits the target is returned
unchanged; the output never has more points than the input; and decimating a
second time with the same target is a no-op whenever the input fits the target
initially or the first pass's output fits the target. -/
theorem decimateNoopIdempotent :
    (∀ (points : List Vec2) (target : Nat) (algo : DecAlgorithm),
        points.length ≤ target → handleDecimate points target algo = points) ∧
    (∀ (points : List TimePoint) (target : Nat),
        points.length ≤ target → decimate points target = points) ∧
    (∀ (points : List Vec2) (target : Nat) (algo : DecAlgorithm),
        (handleDecimate points target algo).length ≤ points.length) ∧
    (∀ (points : List TimePoint) (target : Nat),
        (decimate points target).length ≤ points.length) ∧
    (∀ (points : List Vec2) (target : Nat) (algo : DecAlgorithm),
        (handleDecimate points target algo).length ≤ target →
        handleDecimate (handleDecimate points target algo) target algo
          = handleDecimate points target algo) ∧
    (∀ (points : List TimePoint) (target : Nat),
        (decimate points target).length ≤ target →
        decimate (decimate points target) target = decimate points target) := by
  refine ⟨handleDecimate_of_le, decimate_of_le, handleDecimate_length_le,
    decimate_length_le, ?_, ?_⟩
  · intro points target algo h
    exact handleDecimate_of_le _ _ _ h
  · intro points target h
    exact decimate_of_le _ _ h

theorem decimateNoopIdempotent_witness :
    ([⟨0, 0⟩, ⟨1, 1⟩] : List Vec2).length ≤ 5 ∧
    handleDecimate [⟨0, 0⟩, ⟨1, 1⟩] 5 DecAlgorithm.douglasPeucker = [⟨0, 0⟩, ⟨1, 1⟩] ∧
    decimate [⟨2, 7⟩] 3 = [⟨2, 7⟩] ∧
    (handleDecimate [⟨0, 0⟩, ⟨1, 1⟩] 1 DecAlgorithm.nthPoint).length ≤ 1 ∧
    handleDecimate (handleDecimate [⟨0, 0⟩, ⟨1, 1⟩] 1 DecAlgorithm.nthPoint) 1
        DecAlgorithm.nthPoint
      = handleDecimate [⟨0, 0⟩, ⟨1, 1⟩] 1 DecAlgorithm.nthPoint :=
  ⟨by decide,
   decimateNoopIdempotent.1 [⟨0, 0⟩, ⟨1, 1⟩] 5 DecAlgorithm.douglasPeucker (by decide),
   decimateNoopIdempotent.2.1 [⟨2, 7⟩] 3 (by decide),
   by decide,
   decimateNoopIdempotent.2.2.2.2.1 [⟨0, 0⟩, ⟨1, 1⟩] 1 DecAlgorithm.nthPoint (by decide)⟩

theorem distSq_nonneg (a b : Vec2) : 0 ≤ distSq a b :=
  add_nonneg (sq_nonneg _) (sq_nonneg _)

theorem perpendicularDistanceSq_nonneg (p a b : Vec2) :
    0 ≤ perpendicularDistanceSq p a b := by
  simp only [perpendicularDistanceSq]
  split
  · exact distSq_nonneg _ _
  · exact distSq_nonneg _ _

theorem scanMax_succ (f : Nat → ℚ) (n : Nat) :
    scanMax f (n + 1)
      = if (scanMax f n).1 < f (n + 1) then (f (n + 1), n + 1) else scanMax f n := by
  have h : List.range' 1 (n + 1) = List.range' 1 n ++ [n + 1] := by
    have := @List.range'_concat 1 1 n
    simpa [Nat.add_comm] using this
  simp only [scanMax]
  rw [h, List.foldl_append]
  rfl

/-- The loop-scan returns a value bounding every scanned distance from above;
when it is not the initial `(0, 0)`, its index is in range, achieves the max,
and is the EARLIEST index to do so (every earlier index is strictly below). -/
theorem scanMax_spec (f : Nat → ℚ) (hf : ∀ i, 0 ≤ f i) :
    ∀ n : Nat,
      0 ≤ (scanMax f n).1 ∧
      (∀ i, 1 ≤ i → i ≤ n → f i ≤ (scanMax f n).1) ∧
      (scanMax f n = (0, 0) ∨
        (1 ≤ (scanMax f n).2 ∧ (scanMax f n).2 ≤ n ∧
          f (scanMax f n).2 = (scanMax f n).1 ∧
          ∀ i, 1 ≤ i → i < (scanMax f n).2 → f i < (scanMax f n).1)) := by
  intro n
  induction n with
  | zero =>
    refine ⟨le_refl 0, ?_, Or.inl rfl⟩
    intro i h1 h2
    exact absurd h2 (by omega)
  | succ n ih =>
    rw [scanMax_succ]
    by_cases hlt : (scanMax f n).1 < f (n + 1)
    · rw [if_pos hlt]
      refine ⟨hf (n + 1), ?_, Or.inr ⟨Nat.succ_le_succ (Nat.zero_le n), Nat.le_refl _, rfl, ?_⟩⟩
      · intro i h1 h2
        by_cases hi : i ≤ n
        · exact le_trans (ih.2.1 i h1 hi) (le_of_lt hlt)
        · have hieq : i = n + 1 := by omega
          rw [hieq]
      · intro i h1 h2
        have h2' : i < n + 1 := h2
        have hin : i ≤ n := Nat.lt_succ_iff.mp h2'
        exact lt_of_le_of_lt (ih.2.1 i h1 hin) hlt
    · rw [if_neg hlt]
      have hge : f (n + 1) ≤ (scanMax f n).1 := not_lt.mp hlt
      refine ⟨ih.1, ?_, ?_⟩
      · intro i h1 h2
        by_cases hi : i ≤ n
        · exact ih.2.1 i h1 hi
        · have hieq : i = n + 1 := by omega
          rw [hieq]
          exact hge
      · rcases ih.2.2 with h | ⟨ha, hb, hc, hd⟩
        · exact Or.inl h
        · exact Or.inr ⟨ha, Nat.le_succ_of_le hb, hc, hd⟩

theorem dpScan_spec (points : List Vec2) :
    0 ≤ (dpScan points).1 ∧
    (∀ i, 1 ≤ i → i ≤ points.length - 2 →
      perpendicularDistanceSq (points.getD i ⟨0, 0⟩) (points.headD ⟨0, 0⟩)
        (points.getLastD ⟨0, 0⟩) ≤ (dpScan points).1) ∧
    (dpScan points = (0, 0) ∨
      (1 ≤ (dpScan points).2 ∧ (dpScan points).2 ≤ points.length - 2 ∧
        perpendicularDistanceSq (points.getD (dpScan points).2 ⟨0, 0⟩)
          (points.headD ⟨0, 0⟩) (points.getLastD ⟨0, 0⟩) = (dpScan points).1 ∧
        ∀ i, 1 ≤ i → i < (dpScan points).2 →
          perpendicularDistanceSq (points.getD i ⟨0, 0⟩) (points.headD ⟨0, 0⟩)
            (points.getLastD ⟨0, 0⟩) < (dpScan points).1)) := by
  unfold dpScan
  exact scanMax_spec _ (fun i => perpendicularDistanceSq_nonneg _ _ _) _

theorem dpScan_pos_bounds (points : List Vec2) (tol : ℚ) (htol : 0 ≤ tol)
    (hlt : tol * tol < (dpScan points).1) :
    1 ≤ (dpScan points).2 ∧ (dpScan points).2 ≤ points.length - 2 := by
  have hpos : 0 < (dpScan points).1 := lt_of_le_of_lt (mul_nonneg htol htol) hlt
  rcases (dpScan_spec points).2.2 with h | ⟨ha, hb, _, _⟩
  · rw [h] at hpos
    simp at hpos
  · exact ⟨ha, hb⟩

theorem dpFuel_small (fuel : Nat) (points : List Vec2) (tol : ℚ)
    (h : points.length ≤ 2) : dpFuel fuel points tol = points := by
  cases fuel with
  | zero => rfl
  | succ f =>
    simp only [dpFuel]
    rw [if_pos h]

/-- With a nonnegative tolerance the recursion of douglasPeucker strictly
shrinks the segment, so any fuel at least `points.length` computes the same
result: the fuelled function is the source's (terminating) recursion. -/
theorem dpFuel_fuel_irrel (tol : ℚ) (htol : 0 ≤ tol) :
    ∀ (n : Nat) (points : List Vec2) (f1 f2 : Nat),
      points.length ≤ n → points.length ≤ f1 → points.length ≤ f2 →
      dpFuel f1 points tol = dpFuel f2 points tol := by
  intro n
  induction n with
  | zero =>
    intro points f1 f2 hn h1 h2
    have hsmall : points.length ≤ 2 := by omega
    rw [dpFuel_small f1 points tol hsmall, dpFuel_small f2 points tol hsmall]
  | succ n ih =>
    intro points f1 f2 hn h1 h2
    by_cases hsmall : points.length ≤ 2
    · rw [dpFuel_small f1 points tol hsmall, dpFuel_small f2 points tol hsmall]
    · obtain ⟨g1, rfl⟩ : ∃ g, f1 = g + 1 := ⟨f1 - 1, by omega⟩
      obtain ⟨g2, rfl⟩ : ∃ g, f2 = g + 1 := ⟨f2 - 1, by omega⟩
      simp only [dpFuel]
      rw [if_neg hsmall, if_neg hsmall]
      by_cases hlt : tol * tol < (dpScan points).1
      · rw [if_pos hlt, if_pos hlt]
        obtain ⟨hmi1, hmi2⟩ := dpScan_pos_bounds points tol htol hlt
        have e1 : dpFuel g1 (points.take ((dpScan points).2 + 1)) tol
            = dpFuel g2 (points.take ((dpScan points).2 + 1)) tol := by
          apply ih (points.take ((dpScan points).2 + 1)) g1 g2
          · rw [List.length_take]; omega
          · rw [List.length_take]; omega
          · rw [List.length_take]; omega
        have e2 : dpFuel g1 (points.drop ((dpScan points).2)) tol
            = dpFuel g2 (points.drop ((dpScan points).2)) tol := by
          apply ih (points.drop ((dpScan points).2)) g1 g2
          · rw [List.length_drop]; omega
          · rw [List.length_drop]; omega
          · rw [List.length_drop]; omega
        rw [e1, e2]
      · rw [if_neg hlt, if_neg hlt]

theorem le_foldl_max (xs : List ℚ) : ∀ x : ℚ, x ≤ xs.foldl max x := by
  induction xs with
  | nil => intro x; exact le_refl x
  | cons y ys ih => intro x; exact le_trans (le_max_left x y) (ih (max x y))

theorem foldl_min_le (xs : List ℚ) : ∀ x : ℚ, xs.foldl min x ≤ x := by
  induction xs with
  | nil => intro x; exact le_refl x
  | cons y ys ih => intro x; exact le_trans (ih (min x y)) (min_le_left x y)

theorem minListQ_le_maxListQ (l : List ℚ) (h : l ≠ []) : minListQ l ≤ maxListQ l := by
  cases l with
  | nil => exact absurd rfl h
  | cons x xs =>
    calc minListQ (x :: xs) ≤ x := foldl_min_le xs x
      _ ≤ maxListQ (x :: xs) := le_foldl_max xs x

/-- C5: Douglas-Peucker decimation (all distances squared, tolerance `tol ≥ 0`
so the source's `maxDistance > tolerance` is `tol² < maxDist²`):
(1) a segment of at most 2 points is returned as-is (termination base);
(2) any fuel of at least `points.length` computes the same result, i.e. the
source's recursion terminates and `douglasPeucker` is its fixpoint;
(3) when the max scanned squared distance does not exceed `tol²`, the segment
collapses to its two endpoints;
(4) otherwise the scan's index is an interior index achieving the maximum
distance, every scanned distance is at most the max, every EARLIER index is
strictly below it (ties select the earliest index: deterministic), and the
result recurses on the two sub-segments split at that index, keeping it;
(5) the default tolerance `(maxY - minY) / 100` is nonnegative, and
(6) is exactly what `handleDecimate` passes when decimation runs. -/
theorem douglasPeuckerSpec (points : List Vec2) (tol : ℚ) (htol : 0 ≤ tol) :
    (points.length ≤ 2 → douglasPeucker points tol = points) ∧
    (∀ fuel, points.length ≤ fuel → dpFuel fuel points tol = douglasPeucker points tol) ∧
    (2 < points.length → ¬(tol * tol < (dpScan points).1) →
      douglasPeucker points tol = [points.headD ⟨0, 0⟩, points.getLastD ⟨0, 0⟩]) ∧
    (2 < points.length → tol * tol < (dpScan points).1 →
      1 ≤ (dpScan points).2 ∧ (dpScan points).2 ≤ points.length - 2 ∧
      perpendicularDistanceSq (points.getD ((dpScan points).2) ⟨0, 0⟩)
        (points.headD ⟨0, 0⟩) (points.getLastD ⟨0, 0⟩) = (dpScan points).1 ∧
      (∀ i, 1 ≤ i → i ≤ points.length - 2 →
        perpendicularDistanceSq (points.getD i ⟨0, 0⟩) (points.headD ⟨0, 0⟩)
          (points.getLastD ⟨0, 0⟩) ≤ (dpScan points).1) ∧
      (∀ i, 1 ≤ i → i < (dpScan points).2 →
        perpendicularDistanceSq (points.getD i ⟨0, 0⟩) (points.headD ⟨0, 0⟩)
          (points.getLastD ⟨0, 0⟩) < (dpScan points).1) ∧
      douglasPeucker points tol
        = (douglasPeucker (points.take ((dpScan points).2 + 1)) tol).dropLast
          ++ douglasPeucker (points.drop ((dpScan points).2)) tol) ∧
    (points ≠ [] → 0 ≤ (maxListQ (points.map (fun p => p.y))
        - minListQ (points.map (fun p => p.y))) / 100) ∧
    (∀ target, ¬(points.length ≤ target) →
      handleDecimate points target DecAlgorithm.douglasPeucker
        = douglasPeucker points ((maxListQ (points.map (fun p => p.y))
          - minListQ (points.map (fun p => p.y))) / 100)) := by
  refine ⟨?_, ?_, ?_, ?_, ?_, ?_⟩
  · intro h
    unfold douglasPeucker
    exact dpFuel_small _ _ _ h
  · intro fuel hf
    unfold douglasPeucker
    exact dpFuel_fuel_irrel tol htol points.length points fuel points.length
      (le_refl _) hf (le_refl _)
  · intro h3 hnlt
    unfold douglasPeucker
    obtain ⟨g, hg⟩ : ∃ g, points.length = g + 1 := ⟨points.length - 1, by omega⟩
    rw [hg]
    simp only [dpFuel]
    rw [if_neg (Nat.not_le.mpr h3), if_neg hnlt]
  · intro h3 hlt
    obtain ⟨hmi1, hmi2⟩ := dpScan_pos_bounds points tol htol hlt
    have hspec := dpScan_spec points
    rcases hspec.2.2 with heq | ⟨_, _, hc, hd⟩
    · exfalso
      have hpos : 0 < (dpScan points).1 := lt_of_le_of_lt (mul_nonneg htol htol) hlt
      rw [heq] at hpos
      simp at hpos
    · refine ⟨hmi1, hmi2, hc, hspec.2.1, hd, ?_⟩
      unfold douglasPeucker
      obtain ⟨g, hg⟩ : ∃ g, points.length = g + 1 := ⟨points.length - 1, by omega⟩
      rw [hg]
      simp only [dpFuel]
      rw [if_neg (Nat.not_le.mpr h3), if_pos hlt]
      have e1 : dpFuel g (points.take ((dpScan points).2 + 1)) tol
          = dpFuel (points.take ((dpScan points).2 + 1)).length
              (points.take ((dpScan points).2 + 1)) tol := by
        apply dpFuel_fuel_irrel tol htol (points.take ((dpScan points).2 + 1)).length
          (points.take ((dpScan points).2 + 1)) g
          (points.take ((dpScan points).2 + 1)).length (le_refl _) ?_ (le_refl _)
        rw [List.length_take]
        omega
      have e2 : dpFuel g (points.drop ((dpScan points).2)) tol
          = dpFuel (points.drop ((dpScan points).2)).length
              (points.drop ((dpScan points).2)) tol := by
        apply dpFuel_fuel_irrel tol htol (points.drop ((dpScan points).2)).length
          (points.drop ((dpScan points).2)) g
          (points.drop ((dpScan points).2)).length (le_refl _) ?_ (le_refl _)
        rw [List.length_drop]
        omega
      rw [e1, e2]
  · intro hne
    apply div_nonneg
    · exact sub_nonneg.mpr (minListQ_le_maxListQ _
        (fun h => hne (List.map_eq_nil_iff.mp h)))
    · norm_num
  · intro target h
    unfold handleDecimate
    rw [if_neg h]

theorem douglasPeuckerSpec_witness :
    (0 : ℚ) ≤ 1 ∧ 2 < ([⟨0, 0⟩, ⟨1, 5⟩, ⟨2, 0⟩] : List Vec2).length ∧
    (1 : ℚ) * 1 < (dpScan [⟨0, 0⟩, ⟨1, 5⟩, ⟨2, 0⟩]).1 ∧
    douglasPeucker [⟨0, 0⟩, ⟨1, 5⟩, ⟨2, 0⟩] 1
      = (douglasPeucker (([⟨0, 0⟩, ⟨1, 5⟩, ⟨2, 0⟩] : List Vec2).take
            ((dpScan [⟨0, 0⟩, ⟨1, 5⟩, ⟨2, 0⟩]).2 + 1)) 1).dropLast
        ++ douglasPeucker (([⟨0, 0⟩, ⟨1, 5⟩, ⟨2, 0⟩] : List Vec2).drop
            ((dpScan [⟨0, 0⟩, ⟨1, 5⟩, ⟨2, 0⟩]).2)) 1 :=
  ⟨by norm_num, by decide,
    by norm_num [dpScan, scanMax, List.range', perpendicularDistanceSq, distSq],
    ((douglasPeuckerSpec [⟨0, 0⟩, ⟨1, 5⟩, ⟨2, 0⟩] 1 (by norm_num)).2.2.2.1
      (by decide)
      (by norm_num [dpScan, scanMax, List.range', perpendicularDistanceSq, distSq])).2.2.2.2.2⟩

/-! ## waitForData / clear (shared-data-manager.ts lines 108-149)

`waitForData` loops `checkData`: load the count; resolve when it reaches
`minCount`; reject with the Timeout error when the elapsed wall-clock time
exceeds `timeout`; otherwise `Atomics.wait` (woken by any notify, among them
the one issued by `clear`) and re-poll. The loop is modelled over the trace
of `(Date.now(), loaded count)` observation pairs its iterations make; a
trace that ends without resolving or rejecting leaves the promise pending. -/

/-- How a `waitForData` trace ends: promise resolved, rejected with the
Timeout error, or still pending (no settled outcome yet). -/
inductive WaitOutcome
  | resolved
  | timedOut
  | pending
deriving DecidableEq

/-- The checkData loop of waitForData (lines 117-137) over the observation
trace: each iteration observes the loaded count `cnt` and the clock `now`. -/
def checkData (minCount timeout startTime : Nat) : List (Nat × Nat) → WaitOutcome
  | [] => WaitOutcome.pending
  | (now, cnt) :: rest =>
    if minCount ≤ cnt then WaitOutcome.resolved
    else if timeout < now - startTime then WaitOutcome.timedOut
    else checkData minCount timeout startTime rest

theorem checkData_pending_iff (minCount timeout start : Nat) :
    ∀ obs : List (Nat × Nat),
      checkData minCount timeout start obs = WaitOutcome.pending ↔
        ∀ p ∈ obs, p.2 < minCount ∧ p.1 - start ≤ timeout := by
  intro obs
  induction obs with
  | nil => simp [checkData]
  | cons hd rest ih =>
    obtain ⟨now, cnt⟩ := hd
    simp only [checkData]
    by_cases h1 : minCount ≤ cnt
    · rw [if_pos h1]
      constructor
      · intro h
        exact absurd h (by decide)
      · intro hall
        exact absurd (hall (now, cnt) (List.mem_cons_self _ _)).1 (Nat.not_lt.mpr h1)
    · rw [if_neg h1]
      by_cases h2 : timeout < now - start
      · rw [if_pos h2]
        constructor
        · intro h
          exact absurd h (by decide)
        · intro hall
          exact absurd h2 (Nat.not_lt.mpr (hall (now, cnt) (List.mem_cons_self _ _)).2)
      · rw [if_neg h2]
        rw [ih]
        constructor
        · intro h p hp
          rcases List.mem_cons.mp hp with hpc | hpm
          · rw [hpc]
            exact ⟨Nat.not_le.mp h1, Nat.not_lt.mp h2⟩
          · exact h p hpm
        · intro h p hp
          exact h p (List.mem_cons_of_mem _ hp)

/-- C6 counterexample: a waiter (`minCount = 1`, `timeout = 5000`, started at
time 0) whose two wake-ups — such as the notifies issued by `clear` — both
observe the cleared count 0 well within the timeout window is still pending:
clearing the channel wakes the waiter but does not terminate `waitForData`,
which just re-enters the wait. -/
theorem waitForDataClear_counterexample :
    checkData 1 5000 0 [(10, 0), (20, 0)] = WaitOutcome.pending ∧
    WaitOutcome.pending ≠ WaitOutcome.resolved ∧
    WaitOutcome.pending ≠ WaitOutcome.timedOut := by decide

/-- C6: over the trace of `(now, count)` observations, waitForData's loop
resolves as soon as an observed count reaches `minCount`; rejects with the
Timeout error as soon as the elapsed time at an observation exceeds
`timeout`; a below-threshold observation within the timeout — in particular
the count-0 wake-up produced by `clear`'s notify — leaves the loop polling
(it does NOT terminate the wait); the wait is pending after a trace iff every
observation was below `minCount` and within the timeout. `clear` resets the
targeted series' write cursor and count to zero (leaving the data slice
itself untouched), so a subsequent `getDataCount` on that series reads 0. -/
theorem waitForDataClearSpec :
    (∀ (minCount timeout start now cnt : Nat) (rest : List (Nat × Nat)),
        minCount ≤ cnt →
        checkData minCount timeout start ((now, cnt) :: rest) = WaitOutcome.resolved) ∧
    (∀ (minCount timeout start now cnt : Nat) (rest : List (Nat × Nat)),
        cnt < minCount → timeout < now - start →
        checkData minCount timeout start ((now, cnt) :: rest) = WaitOutcome.timedOut) ∧
    (∀ (minCount timeout start now cnt : Nat) (rest : List (Nat × Nat)),
        cnt < minCount → now - start ≤ timeout →
        checkData minCount timeout start ((now, cnt) :: rest)
          = checkData minCount timeout start rest) ∧
    (∀ (minCount timeout start : Nat) (obs : List (Nat × Nat)),
        checkData minCount timeout start obs = WaitOutcome.pending ↔
          ∀ p ∈ obs, p.2 < minCount ∧ p.1 - start ≤ timeout) ∧
    (∀ (sc : SharedChannel Nat),
        (clearChannel sc).writeIdx = 0 ∧ (clearChannel sc).count = 0 ∧
        (clearChannel sc).buf = sc.buf) ∧
    (∀ (mg : SharedDataManager Nat) (si : Nat), si < mg.series.length →
        mGetDataCount (mClear mg si) si = 0) := by
  refine ⟨?_, ?_, ?_, ?_, ?_, ?_⟩
  · intro minCount timeout start now cnt rest h
    simp only [checkData]
    rw [if_pos h]
  · intro minCount timeout start now cnt rest h1 h2
    simp only [checkData]
    rw [if_neg (Nat.not_le.mpr h1), if_pos h2]
  · intro minCount timeout start now cnt rest h1 h2
    simp only [checkData]
    rw [if_neg (Nat.not_le.mpr h1), if_neg (Nat.not_lt.mpr h2)]
  · exact fun minCount timeout start obs => checkData_pending_iff minCount timeout start obs
  · intro sc
    exact ⟨rfl, rfl, rfl⟩
  · intro mg si h
    simp only [mGetDataCount, mClear, getDataCount]
    rw [getD_modify, if_pos rfl, List.getElem?_eq_getElem h]
    simp [clearChannel]

theorem waitForDataClearSpec_witness :
    (1 ≤ 2 ∧ checkData 1 5000 0 [(10, 2)] = WaitOutcome.resolved) ∧
    (0 < 1 ∧ 5000 < 6000 - 0 ∧ checkData 1 5000 0 [(6000, 0)] = WaitOutcome.timedOut) ∧
    (0 < 1 ∧ 10 - 0 ≤ 5000 ∧
      checkData 1 5000 0 [(10, 0), (20, 3)] = checkData 1 5000 0 [(20, 3)]) ∧
    (0 < (1 : Nat) ∧
      mGetDataCount (mClear (⟨4, 1, [⟨[7, 8], 1, 2⟩]⟩ : SharedDataManager Nat) 0) 0 = 0) :=
  ⟨⟨by decide, waitForDataClearSpec.1 1 5000 0 10 2 [] (by decide)⟩,
   ⟨by decide, by decide, waitForDataClearSpec.2.1 1 5000 0 6000 0 [] (by decide) (by decide)⟩,
   ⟨by decide, by decide,
     waitForDataClearSpec.2.2.1 1 5000 0 10 0 [(20, 3)] (by decide) (by decide)⟩,
   ⟨by decide,
     waitForDataClearSpec.2.2.2.2.2 (⟨4, 1, [⟨[7, 8], 1, 2⟩]⟩ : SharedDataManager Nat) 0
       (by decide)⟩⟩
